import Mathlib

/-!
# Verification of the Pitch-Perfect segment aggregator and orchestrator contract

This development shallowly embeds `scripts/whisper_fixed_segments.py` (the
Segment Aggregator) and the dependency-aware processing orchestrator described
by the repository's behaviour tests, and proves the specification's claims
about them.

Modelling conventions:
* Python floats are modelled by `ℚ` (exact rational arithmetic).
* Python strings are modelled by `List Char`.
* The `json` library's parse step is abstracted: an input document is either
  `none` (malformed text, where `json.load` raises a decode error) or
  `some v` with `v` the parsed JSON value.
-/

/-- Python `str.strip()`: remove leading and trailing whitespace. -/
def pyStrip (l : List Char) : List Char :=
  ((l.dropWhile Char.isWhitespace).reverse.dropWhile Char.isWhitespace).reverse

/-- Python `sep.join(pieces)`: the pieces in order with `sep` between
consecutive pieces. -/
def pyJoin (sep : List Char) : List (List Char) → List Char
  | [] => []
  | [p] => p
  | p :: q :: rest => p ++ sep ++ pyJoin sep (q :: rest)

/-- A transcript segment: Python dict with keys `start`, `end`, `text`.
(`end` is a Lean keyword, so the field is called `stop`.) -/
structure Seg where
  start : ℚ
  stop : ℚ
  text : List Char
deriving DecidableEq, Repr

/-- An output window: dict with keys `id`, `start`, `end`, `text`. -/
structure Window where
  id : ℕ
  start : ℚ
  stop : ℚ
  text : List Char
deriving DecidableEq, Repr

/-- `(seg['start'] + seg['end']) / 2` — the midpoint used for bucketing. -/
def midSeg (s : Seg) : ℚ := (s.start + s.stop) / 2

/-- The inner loop of `create_fixed_segments`: `segment_text = []` then
`for seg in segments: if current_time <= midpoint < segment_end:
segment_text.append(seg['text'].strip())`. -/
def collectPieces (segs : List Seg) (lo hi : ℚ) : List (List Char) :=
  segs.foldl
    (fun acc s => if lo ≤ midSeg s ∧ midSeg s < hi then acc ++ [pyStrip s.text] else acc) []

/-- `combined_text = ' '.join(segment_text)`. -/
def windowText (segs : List Seg) (lo hi : ℚ) : List Char :=
  pyJoin [' '] (collectPieces segs lo hi)

/-- `total_duration = segments[-1]['end'] if segments else 0`. -/
def totalDuration (segs : List Seg) : ℚ :=
  match segs.getLast? with
  | some s => s.stop
  | none => 0

/-- The `while current_time < total_duration` loop of `create_fixed_segments`.
`t` is `current_time`, `id` is `segment_id`.  The loop diverges in Python when
the window duration is not positive, hence the positivity argument `hD`. -/
def fsLoop (segs : List Seg) (D : ℚ) (hD : 0 < D) (T t : ℚ) (id : ℕ) : List Window :=
  if h : t < T then
    ⟨id, t, min (t + D) T, windowText segs t (min (t + D) T)⟩ ::
      fsLoop segs D hD T (min (t + D) T) (id + 1)
  else []
termination_by (⌈(T - t) / D⌉).toNat
decreasing_by
  have h1 : (0 : ℚ) < (T - t) / D := div_pos (by linarith) hD
  have h2 : (0 : ℤ) < ⌈(T - t) / D⌉ := Int.ceil_pos.mpr h1
  rcases le_or_lt (t + D) T with hle | hlt
  · rw [min_eq_left hle]
    have e1 : (T - (t + D)) / D = (T - t) / D - 1 := by
      rw [sub_add_eq_sub_sub, sub_div, div_self (ne_of_gt hD)]
    rw [e1, Int.ceil_sub_one]
    omega
  · rw [min_eq_right (le_of_lt hlt)]
    simp only [sub_self, zero_div, Int.ceil_zero]
    omega

/-- `create_fixed_segments` from `scripts/whisper_fixed_segments.py`, with the
file-reading part factored out (the function body from the point where the
typed segment list is in hand).  Windows are numbered from `segment_id = 1`
and `current_time = 0`. -/
def create_fixed_segments (segs : List Seg) (D : ℚ) (hD : 0 < D) : List Window :=
  fsLoop segs D hD (totalDuration segs) 0 1

example : totalDuration [] = 0 := rfl

/-! ## Loop invariants of `fsLoop` -/

/-- The window skeleton: everything except the text. -/
def skel (w : Window) : ℕ × ℚ × ℚ := (w.id, w.start, w.stop)

theorem fsLoop_eq_nil (segs : List Seg) (D : ℚ) (hD : 0 < D) (T t : ℚ) (id : ℕ)
    (h : ¬ t < T) : fsLoop segs D hD T t id = [] := by
  rw [fsLoop]
  simp [h]

theorem fsLoop_eq_cons (segs : List Seg) (D : ℚ) (hD : 0 < D) (T t : ℚ) (id : ℕ)
    (h : t < T) :
    fsLoop segs D hD T t id =
      ⟨id, t, min (t + D) T, windowText segs t (min (t + D) T)⟩ ::
        fsLoop segs D hD T (min (t + D) T) (id + 1) := by
  rw [fsLoop]
  simp [h]

theorem fsLoop_ne_nil (segs : List Seg) (D : ℚ) (hD : 0 < D) (T t : ℚ) (id : ℕ)
    (h : t < T) : fsLoop segs D hD T t id ≠ [] := by
  rw [fsLoop_eq_cons segs D hD T t id h]
  simp

/-- Every emitted window sits inside `[t, T)`, has positive width, ends at
`min (start + D) T`, and carries the midpoint-bucketed text. -/
theorem fsLoop_mem (segs : List Seg) (D : ℚ) (hD : 0 < D) (T t : ℚ) (id : ℕ) :
    ∀ w ∈ fsLoop segs D hD T t id,
      t ≤ w.start ∧ w.start < w.stop ∧ w.stop ≤ T ∧
      w.stop = min (w.start + D) T ∧
      w.text = windowText segs w.start w.stop := by
  induction t, id using fsLoop.induct segs D hD T with
  | case1 t id h ih =>
    intro w hw
    rw [fsLoop_eq_cons segs D hD T t id h] at hw
    rcases List.mem_cons.mp hw with rfl | hw
    · refine ⟨le_refl _, lt_min (by linarith) h, min_le_right _ _, rfl, rfl⟩
    · obtain ⟨h1, h2, h3, h4, h5⟩ := ih w hw
      have hm : t ≤ min (t + D) T := le_min (by linarith) (le_of_lt h)
      exact ⟨le_trans hm h1, h2, h3, h4, h5⟩
  | case2 t id h =>
    intro w hw
    rw [fsLoop_eq_nil segs D hD T t id h] at hw
    simp at hw

/-- Consecutive windows abut: each window's `end` is the next one's `start`. -/
theorem fsLoop_chain (segs : List Seg) (D : ℚ) (hD : 0 < D) (T t : ℚ) (id : ℕ) :
    List.Chain' (fun a b => a.stop = b.start) (fsLoop segs D hD T t id) := by
  induction t, id using fsLoop.induct segs D hD T with
  | case1 t id h ih =>
    rw [fsLoop_eq_cons segs D hD T t id h]
    rw [List.chain'_cons']
    refine ⟨?_, ih⟩
    intro b hb
    by_cases h2 : min (t + D) T < T
    · rw [fsLoop_eq_cons segs D hD T _ _ h2] at hb
      simp at hb
      rw [← hb]
    · rw [fsLoop_eq_nil segs D hD T _ _ h2] at hb
      simp at hb
  | case2 t id h =>
    rw [fsLoop_eq_nil segs D hD T t id h]
    exact List.chain'_nil

theorem fsLoop_head (segs : List Seg) (D : ℚ) (hD : 0 < D) (T t : ℚ) (id : ℕ)
    (h : t < T) :
    (fsLoop segs D hD T t id).head? =
      some ⟨id, t, min (t + D) T, windowText segs t (min (t + D) T)⟩ := by
  rw [fsLoop_eq_cons segs D hD T t id h]
  rfl

/-- If the loop runs at all, the last window ends exactly at `T`. -/
theorem fsLoop_last_stop (segs : List Seg) (D : ℚ) (hD : 0 < D) (T t : ℚ) (id : ℕ)
    (h : t < T) :
    ((fsLoop segs D hD T t id).getLast?).map Window.stop = some T := by
  induction t, id using fsLoop.induct segs D hD T with
  | case1 t id h1 ih =>
    rw [fsLoop_eq_cons segs D hD T t id h1]
    by_cases h2 : min (t + D) T < T
    · have hne := fsLoop_ne_nil segs D hD T (min (t + D) T) (id + 1) h2
      rcases hl : fsLoop segs D hD T (min (t + D) T) (id + 1) with _ | ⟨b, l⟩
      · exact absurd hl hne
      · rw [List.getLast?_cons_cons]
        have := ih h2
        rw [hl] at this
        exact this
    · rw [fsLoop_eq_nil segs D hD T _ _ h2]
      have : min (t + D) T = T := le_antisymm (min_le_right _ _) (not_lt.mp h2)
      simp [this]
  | case2 t id h1 =>
    exact absurd h h1

/-- One loop iteration consumes exactly one unit of the `⌈(T - t)/D⌉` budget. -/
theorem ceil_step (D T t : ℚ) (hD : 0 < D) (h : t < T) :
    (⌈(T - t) / D⌉).toNat = (⌈(T - min (t + D) T) / D⌉).toNat + 1 := by
  have h1 : (0 : ℚ) < (T - t) / D := div_pos (by linarith) hD
  have h2 : (0 : ℤ) < ⌈(T - t) / D⌉ := Int.ceil_pos.mpr h1
  rcases le_or_lt (t + D) T with hle | hlt
  · rw [min_eq_left hle]
    have e1 : (T - (t + D)) / D = (T - t) / D - 1 := by
      rw [sub_add_eq_sub_sub, sub_div, div_self (ne_of_gt hD)]
    rw [e1, Int.ceil_sub_one]
    have h3 : (0 : ℤ) ≤ ⌈(T - (t + D)) / D⌉ := by
      apply Int.ceil_nonneg
      apply div_nonneg (by linarith) (le_of_lt hD)
    omega
  · rw [min_eq_right (le_of_lt hlt)]
    have hlt1 : (T - t) / D ≤ 1 := by
      rw [div_le_one hD]
      linarith
    have h4 : ⌈(T - t) / D⌉ ≤ 1 := by
      calc ⌈(T - t) / D⌉ ≤ ⌈(1 : ℚ)⌉ := Int.ceil_le_ceil hlt1
        _ = 1 := Int.ceil_one
    simp only [sub_self, zero_div, Int.ceil_zero]
    omega

/-- The loop emits exactly `⌈(T - t)/D⌉` windows. -/
theorem fsLoop_length (segs : List Seg) (D : ℚ) (hD : 0 < D) (T t : ℚ) (id : ℕ) :
    (fsLoop segs D hD T t id).length = (⌈(T - t) / D⌉).toNat := by
  induction t, id using fsLoop.induct segs D hD T with
  | case1 t id h ih =>
    rw [fsLoop_eq_cons segs D hD T t id h, List.length_cons, ih,
      ceil_step D T t hD h]
  | case2 t id h =>
    rw [fsLoop_eq_nil segs D hD T t id h]
    have h1 : (T - t) / D ≤ 0 := by
      apply div_nonpos_of_nonpos_of_nonneg (by linarith) (le_of_lt hD)
    have h2 : ⌈(T - t) / D⌉ ≤ 0 := Int.ceil_le.mpr (by exact_mod_cast h1)
    simp
    omega

/-- Window ids are consecutive, starting from the initial `segment_id`. -/
theorem fsLoop_ids (segs : List Seg) (D : ℚ) (hD : 0 < D) (T t : ℚ) (id : ℕ) :
    (fsLoop segs D hD T t id).map Window.id =
      List.range' id (fsLoop segs D hD T t id).length := by
  induction t, id using fsLoop.induct segs D hD T with
  | case1 t id h ih =>
    rw [fsLoop_eq_cons segs D hD T t id h, List.map_cons, List.length_cons,
      List.range'_succ, ih]
  | case2 t id h =>
    rw [fsLoop_eq_nil segs D hD T t id h]
    rfl

/-- The skeleton of the output (ids and boundaries) does not depend on the
input segments, only on `T`, `D` and the loop counters. -/
theorem fsLoop_skel (segs1 segs2 : List Seg) (D : ℚ) (hD : 0 < D) (T t : ℚ) (id : ℕ) :
    (fsLoop segs1 D hD T t id).map skel = (fsLoop segs2 D hD T t id).map skel := by
  induction t, id using fsLoop.induct segs1 D hD T with
  | case1 t id h ih =>
    rw [fsLoop_eq_cons segs1 D hD T t id h, fsLoop_eq_cons segs2 D hD T t id h,
      List.map_cons, List.map_cons, ih]
    rfl
  | case2 t id h =>
    rw [fsLoop_eq_nil segs1 D hD T t id h, fsLoop_eq_nil segs2 D hD T t id h]

/-- The emitted windows are pairwise ordered (hence disjoint intervals). -/
theorem fsLoop_pairwise (segs : List Seg) (D : ℚ) (hD : 0 < D) (T t : ℚ) (id : ℕ) :
    List.Pairwise (fun a b => a.stop ≤ b.start) (fsLoop segs D hD T t id) := by
  induction t, id using fsLoop.induct segs D hD T with
  | case1 t id h ih =>
    rw [fsLoop_eq_cons segs D hD T t id h]
    refine List.Pairwise.cons ?_ ih
    intro b hb
    exact (fsLoop_mem segs D hD T (min (t + D) T) (id + 1) b hb).1
  | case2 t id h =>
    rw [fsLoop_eq_nil segs D hD T t id h]
    exact List.Pairwise.nil

/-- The piece-collecting fold is the filter-then-map of the input order. -/
theorem collectPieces_eq (segs : List Seg) (lo hi : ℚ) :
    collectPieces segs lo hi =
      (segs.filter (fun s => lo ≤ midSeg s ∧ midSeg s < hi)).map
        (fun s => pyStrip s.text) := by
  have key : ∀ (l : List Seg) (acc : List (List Char)),
      l.foldl
        (fun acc s => if lo ≤ midSeg s ∧ midSeg s < hi then acc ++ [pyStrip s.text] else acc)
        acc =
      acc ++ (l.filter (fun s => lo ≤ midSeg s ∧ midSeg s < hi)).map
        (fun s => pyStrip s.text) := by
    intro l
    induction l with
    | nil => intro acc; simp
    | cons s l ih =>
      intro acc
      by_cases hs : lo ≤ midSeg s ∧ midSeg s < hi
      · simp [List.foldl_cons, List.filter_cons, hs, ih]
      · simp [List.foldl_cons, List.filter_cons, hs, ih]
  simpa using key segs []

/-- A named positivity fact for the default window length `5.0`. -/
theorem five_pos : (0 : ℚ) < 5 := by norm_num

/-- The worked example of the spec: two segments `[0,5) "a"` and `[5,10) "b"`
with `D = 5`. -/
def exampleSegs : List Seg := [⟨0, 5, ['a']⟩, ⟨5, 10, ['b']⟩]

/-- C1: for every non-empty input whose segments each satisfy `end > start`
and whose last segment ends at `T > 0`, and every `D > 0`, the emitted
windows exactly tile `[0, T)`: the list is non-empty, the first window starts
at `0`, consecutive windows abut, the last window ends at `T`, and every
window has width at most `D`. -/
theorem aggregator_windows_tile (segs : List Seg) (D : ℚ) (hD : 0 < D)
    (hne : segs ≠ []) (hss : ∀ s ∈ segs, s.start < s.stop)
    (hT : 0 < totalDuration segs) :
    create_fixed_segments segs D hD ≠ [] ∧
    ((create_fixed_segments segs D hD).head?).map Window.start = some 0 ∧
    List.Chain' (fun a b => a.stop = b.start) (create_fixed_segments segs D hD) ∧
    ((create_fixed_segments segs D hD).getLast?).map Window.stop =
      some (totalDuration segs) ∧
    ∀ w ∈ create_fixed_segments segs D hD, w.stop - w.start ≤ D := by
  unfold create_fixed_segments
  refine ⟨fsLoop_ne_nil segs D hD _ 0 1 hT, ?_, fsLoop_chain segs D hD _ 0 1,
    fsLoop_last_stop segs D hD _ 0 1 hT, ?_⟩
  · rw [fsLoop_head segs D hD _ 0 1 hT]
    rfl
  · intro w hw
    obtain ⟨_, _, _, h4, _⟩ := fsLoop_mem segs D hD _ 0 1 w hw
    have : w.stop ≤ w.start + D := h4 ▸ min_le_left _ _
    linarith

/-- Closed witness for C1 at the spec's worked example. -/
theorem aggregator_windows_tile_witness :
    exampleSegs ≠ [] ∧ (∀ s ∈ exampleSegs, s.start < s.stop) ∧
    0 < totalDuration exampleSegs ∧
    (create_fixed_segments exampleSegs 5 five_pos ≠ [] ∧
     ((create_fixed_segments exampleSegs 5 five_pos).head?).map Window.start = some 0 ∧
     List.Chain' (fun a b => a.stop = b.start)
       (create_fixed_segments exampleSegs 5 five_pos) ∧
     ((create_fixed_segments exampleSegs 5 five_pos).getLast?).map Window.stop =
       some (totalDuration exampleSegs) ∧
     ∀ w ∈ create_fixed_segments exampleSegs 5 five_pos, w.stop - w.start ≤ 5) :=
  ⟨by decide, by decide, by decide,
   aggregator_windows_tile exampleSegs 5 five_pos (by decide) (by decide) (by decide)⟩

/-- Evaluation of the spec's worked example. -/
theorem example_eval :
    create_fixed_segments exampleSegs 5 five_pos =
      [⟨1, 0, 5, ['a']⟩, ⟨2, 5, 10, ['b']⟩] := by
  unfold create_fixed_segments
  rw [fsLoop]
  norm_num [totalDuration, exampleSegs, windowText, collectPieces, midSeg, pyJoin]
  rw [fsLoop]
  norm_num [windowText, collectPieces, midSeg, pyJoin]
  rw [fsLoop]
  norm_num
  decide

/-- C2: each emitted window's text is the single-space join, in input order,
of the whitespace-trimmed texts of exactly those segments whose midpoint
`(start+end)/2` lies in `[window.start, window.end)`; and on the worked
example `segments = [(0,5,"a"), (5,10,"b")]` with `D = 5` the output is
`[(1,0,5,"a"), (2,5,10,"b")]`. -/
theorem window_text_midpoint_rule :
    (∀ (segs : List Seg) (D : ℚ) (hD : 0 < D),
      ∀ w ∈ create_fixed_segments segs D hD,
        w.text =
          pyJoin [' ']
            ((segs.filter (fun s => w.start ≤ midSeg s ∧ midSeg s < w.stop)).map
              (fun s => pyStrip s.text))) ∧
    create_fixed_segments exampleSegs 5 five_pos =
      [⟨1, 0, 5, ['a']⟩, ⟨2, 5, 10, ['b']⟩] := by
  constructor
  · intro segs D hD w hw
    obtain ⟨_, _, _, _, h5⟩ := fsLoop_mem segs D hD _ 0 1 w hw
    rw [h5, windowText, collectPieces_eq]
  · exact example_eval

/-- Closed witness for C2: instantiates the universal part at the worked
example's first window. -/
theorem window_text_midpoint_rule_witness :
    (⟨1, 0, 5, ['a']⟩ : Window) ∈ create_fixed_segments exampleSegs 5 five_pos ∧
    (['a'] : List Char) =
      pyJoin [' ']
        ((exampleSegs.filter
            (fun s => (0 : ℚ) ≤ midSeg s ∧ midSeg s < (5 : ℚ))).map
          (fun s => pyStrip s.text)) := by
  have hmem : (⟨1, 0, 5, ['a']⟩ : Window) ∈ create_fixed_segments exampleSegs 5 five_pos := by
    rw [window_text_midpoint_rule.2]
    simp
  refine ⟨hmem, ?_⟩
  exact window_text_midpoint_rule.1 exampleSegs 5 five_pos _ hmem

/-- Input exercising an empty middle window and a negative midpoint. -/
def gapSegs : List Seg := [⟨-4, -2, ['n']⟩, ⟨0, 1, ['x']⟩, ⟨11, 13, ['y']⟩]

/-- C10: for non-empty input ending at `T > 0` and `D > 0`, the aggregator
emits exactly `⌈T/D⌉` windows with consecutive ids `1..n`; a window receiving
no segment midpoint has the empty string as text, and a segment whose
midpoint lies outside `[0, T)` falls in no window's range. -/
theorem window_count_ids_empty (segs : List Seg) (D : ℚ) (hD : 0 < D)
    (hne : segs ≠ []) (hT : 0 < totalDuration segs) :
    (create_fixed_segments segs D hD).length = (⌈totalDuration segs / D⌉).toNat ∧
    (create_fixed_segments segs D hD).map Window.id =
      List.range' 1 (create_fixed_segments segs D hD).length ∧
    (∀ w ∈ create_fixed_segments segs D hD,
      (∀ s ∈ segs, ¬ (w.start ≤ midSeg s ∧ midSeg s < w.stop)) → w.text = []) ∧
    (∀ s ∈ segs, (midSeg s < 0 ∨ totalDuration segs ≤ midSeg s) →
      ∀ w ∈ create_fixed_segments segs D hD,
        ¬ (w.start ≤ midSeg s ∧ midSeg s < w.stop)) := by
  refine ⟨?_, ?_, ?_, ?_⟩
  · unfold create_fixed_segments
    rw [fsLoop_length]
    rw [sub_zero]
  · exact fsLoop_ids segs D hD _ 0 1
  · intro w hw hno
    obtain ⟨_, _, _, _, h5⟩ := fsLoop_mem segs D hD _ 0 1 w hw
    rw [h5, windowText, collectPieces_eq]
    have : segs.filter (fun s => w.start ≤ midSeg s ∧ midSeg s < w.stop) = [] := by
      rw [List.filter_eq_nil]
      intro s hs
      simpa using hno s hs
    rw [this]
    rfl
  · intro s hs hout w hw hin
    obtain ⟨h1, _, h3, _, _⟩ := fsLoop_mem segs D hD _ 0 1 w hw
    rcases hout with hneg | hbig
    · exact absurd hin.1 (by linarith)
    · exact absurd hin.2 (by linarith)

/-- Closed witness for C10 on an input with an empty middle window and a
segment whose midpoint is negative. -/
theorem window_count_ids_empty_witness :
    gapSegs ≠ [] ∧ 0 < totalDuration gapSegs ∧
    ((create_fixed_segments gapSegs 5 five_pos).length =
        (⌈totalDuration gapSegs / 5⌉).toNat ∧
     (create_fixed_segments gapSegs 5 five_pos).map Window.id =
        List.range' 1 (create_fixed_segments gapSegs 5 five_pos).length ∧
     (∀ w ∈ create_fixed_segments gapSegs 5 five_pos,
        (∀ s ∈ gapSegs, ¬ (w.start ≤ midSeg s ∧ midSeg s < w.stop)) → w.text = []) ∧
     (∀ s ∈ gapSegs, (midSeg s < 0 ∨ totalDuration gapSegs ≤ midSeg s) →
        ∀ w ∈ create_fixed_segments gapSegs 5 five_pos,
          ¬ (w.start ≤ midSeg s ∧ midSeg s < w.stop))) :=
  ⟨by decide, by decide,
   window_count_ids_empty gapSegs 5 five_pos (by decide) (by decide)⟩

/-! ## Dynamic (JSON-level) semantics of the script

The script manipulates parsed JSON dynamically; ill-typed documents raise
Python runtime errors.  `JVal` is a parsed JSON value; a raw input document is
`Option JVal`, with `none` standing for text that `json.load` rejects. -/

/-- A parsed JSON value. -/
inductive JVal where
  | null : JVal
  | bool (b : Bool) : JVal
  | num (q : ℚ) : JVal
  | str (s : List Char) : JVal
  | arr (xs : List JVal) : JVal
  | obj (fields : List (List Char × JVal)) : JVal

/-- Python runtime errors the script can raise while consuming the document
(`TypeError`, `KeyError` on a segment field, `AttributeError` from calling
`.strip()` on a non-string). -/
inductive PyErr where
  | typeError : PyErr
  | keyError : PyErr
  | attributeError : PyErr
deriving DecidableEq, Repr

/-- The aggregator's failure taxonomy from the spec: `ParseError` for
malformed JSON, `SchemaError` for a document without the `segments` key, and
any other uncaught Python runtime error. -/
inductive AggError where
  | parseError : AggError
  | schemaError : AggError
  | dyn (e : PyErr) : AggError
deriving DecidableEq, Repr

def segmentsKey : List Char := "segments".data
def startKey : List Char := "start".data
def endKey : List Char := "end".data
def textKey : List Char := "text".data
def idKey : List Char := "id".data

/-- Lookup in a JSON object as Python's `json` builds dicts: a duplicated key
keeps its last occurrence. -/
def dictGet (fields : List (List Char × JVal)) (k : List Char) : Option JVal :=
  (fields.reverse.find? (fun p => p.1 = k)).map Prod.snd

/-- Python subscript `v[k]` with a string key: `KeyError` if the key is
missing, `TypeError` if `v` is not a dict. -/
def getItem (v : JVal) (k : List Char) : Except PyErr JVal :=
  match v with
  | .obj fs =>
    match dictGet fs k with
    | some x => .ok x
    | none => .error .keyError
  | _ => .error .typeError

/-- Numeric coercion at Python arithmetic/comparison sites; `bool` is an
`int` subtype in Python, every other type raises `TypeError` when compared
with or divided as a number. -/
def asNum (v : JVal) : Except PyErr ℚ :=
  match v with
  | .num q => .ok q
  | .bool b => .ok (if b then 1 else 0)
  | _ => .error .typeError

/-- `seg['text'].strip()` requires a string receiver; any other type raises
`AttributeError` for the missing `strip` attribute. -/
def asStrText (v : JVal) : Except PyErr (List Char) :=
  match v with
  | .str s => .ok s
  | _ => .error .attributeError

/-- `(seg['start'] + seg['end']) / 2` on raw JSON values.  The two subscripts
are evaluated first (`KeyError`/`TypeError` sites), then the arithmetic, which
raises `TypeError` on non-numeric operands (string concatenation would still
fail at the division). -/
def dynMid (seg : JVal) : Except PyErr ℚ := do
  let a ← getItem seg startKey
  let b ← getItem seg endKey
  let x ← asNum a
  let y ← asNum b
  pure ((x + y) / 2)

/-- The inner `for seg in segments` loop on raw values: bucket test on the
midpoint, then `seg['text'].strip()` for segments inside the window.  Raises
at the first offending segment, in input order. -/
def dynPieces (xs : List JVal) (lo hi : ℚ) : Except PyErr (List (List Char)) :=
  match xs with
  | [] => .ok []
  | seg :: rest => do
    let m ← dynMid seg
    if lo ≤ m ∧ m < hi then do
      let tv ← getItem seg textKey
      let s ← asStrText tv
      let others ← dynPieces rest lo hi
      pure (pyStrip s :: others)
    else
      dynPieces rest lo hi

/-- The `while` loop on raw segment values. -/
def dynLoop (xs : List JVal) (D : ℚ) (hD : 0 < D) (T t : ℚ) (id : ℕ) :
    Except PyErr (List Window) :=
  if h : t < T then do
    let pieces ← dynPieces xs t (min (t + D) T)
    let rest ← dynLoop xs D hD T (min (t + D) T) (id + 1)
    pure (⟨id, t, min (t + D) T, pyJoin [' '] pieces⟩ :: rest)
  else .ok []
termination_by (⌈(T - t) / D⌉).toNat
decreasing_by
  have h1 : (0 : ℚ) < (T - t) / D := div_pos (by linarith) hD
  have h2 : (0 : ℤ) < ⌈(T - t) / D⌉ := Int.ceil_pos.mpr h1
  rcases le_or_lt (t + D) T with hle | hlt
  · rw [min_eq_left hle]
    have e1 : (T - (t + D)) / D = (T - t) / D - 1 := by
      rw [sub_add_eq_sub_sub, sub_div, div_self (ne_of_gt hD)]
    rw [e1, Int.ceil_sub_one]
    omega
  · rw [min_eq_right (le_of_lt hlt)]
    simp only [sub_self, zero_div, Int.ceil_zero]
    omega

/-- The body of `create_fixed_segments` applied to the raw value bound to
`segments`.  Python truthiness decides `segments[-1]['end'] if segments
else 0`; a truthy non-list value fails at the `[-1]` subscript (`TypeError`,
or `KeyError` for a dict), and the `while` test then coerces the total
duration to a number. -/
def dynFromSegsVal (segsVal : JVal) (D : ℚ) (hD : 0 < D) :
    Except PyErr (List Window) :=
  match segsVal with
  | .arr xs => do
    let totalRaw ← (match xs.getLast? with
      | none => .ok (JVal.num 0)
      | some v => getItem v endKey)
    let T ← asNum totalRaw
    dynLoop xs D hD T 0 1
  | .str s => if s = [] then .ok [] else .error .typeError
  | .null => .ok []
  | .bool b => if b then .error .typeError else .ok []
  | .num q => if q = 0 then .ok [] else .error .typeError
  | .obj fs =>
    match fs with
    | [] => .ok []
    | _ :: _ => .error .keyError

/-- `create_fixed_segments` on a parsed document: `data['segments']` raises
`KeyError('segments')` — the spec's `SchemaError` — when the dict lacks the
key, and `TypeError` when the document is not an object. -/
def create_fixed_segments_dyn (data : JVal) (D : ℚ) (hD : 0 < D) :
    Except AggError (List Window) :=
  match data with
  | .obj fs =>
    match dictGet fs segmentsKey with
    | none => .error .schemaError
    | some segsVal => (dynFromSegsVal segsVal D hD).mapError AggError.dyn
  | _ => .error (.dyn .typeError)

/-- The whole single-shot transform: parse (abstracted), then bucket.  A
`none` input is text rejected by `json.load` — the spec's `ParseError`. -/
def runAggregator (input : Option JVal) (D : ℚ) (hD : 0 < D) :
    Except AggError (List Window) :=
  match input with
  | none => .error .parseError
  | some data => create_fixed_segments_dyn data D hD

/-- JSON serialization of one output window. -/
def windowJson (w : Window) : JVal :=
  .obj [(idKey, .num w.id), (startKey, .num w.start),
        (endKey, .num w.stop), (textKey, .str w.text)]

/-- The document written to `<input>_fixed_segments.json`:
`json.dump({'segments': fixed_segments}, f)`. -/
def outputDoc (ws : List Window) : JVal :=
  .obj [(segmentsKey, .arr (ws.map windowJson))]

/-- Process exit status: Python exits `0` on success and `1` on an uncaught
exception. -/
def exitCode (input : Option JVal) (D : ℚ) (hD : 0 < D) : ℕ :=
  match runAggregator input D hD with
  | .ok _ => 0
  | .error _ => 1

/-- JSON encoding of a typed segment. -/
def segJson (s : Seg) : JVal :=
  .obj [(startKey, .num s.start), (endKey, .num s.stop), (textKey, .str s.text)]

/-! ## Agreement of the dynamic semantics with the typed core -/

theorem bindE {α β ε : Type} (a : α) (f : α → Except ε β) :
    (Except.ok a : Except ε α) >>= f = f a := rfl

theorem pureE {α ε : Type} (a : α) : (pure a : Except ε α) = Except.ok a := rfl

theorem dynMid_segJson (s : Seg) : dynMid (segJson s) = .ok (midSeg s) := rfl

theorem dynPieces_segJson (segs : List Seg) (lo hi : ℚ) :
    dynPieces (segs.map segJson) lo hi = .ok (collectPieces segs lo hi) := by
  rw [collectPieces_eq]
  induction segs with
  | nil => rfl
  | cons s rest ih =>
    rw [List.map_cons, dynPieces, dynMid_segJson]
    by_cases hc : lo ≤ midSeg s ∧ midSeg s < hi
    · rw [bindE, if_pos hc,
        show getItem (segJson s) textKey = .ok (.str s.text) from rfl,
        bindE]
      show (dynPieces _ lo hi) >>= _ = _
      rw [ih, bindE, List.filter_cons]
      simp [hc, pureE]
    · rw [bindE, if_neg hc, ih, List.filter_cons]
      simp [hc]

theorem dynLoop_eq_nil (xs : List JVal) (D : ℚ) (hD : 0 < D) (T t : ℚ) (id : ℕ)
    (h : ¬ t < T) : dynLoop xs D hD T t id = .ok [] := by
  rw [dynLoop]
  simp [h]

theorem dynLoop_eq_cons (xs : List JVal) (D : ℚ) (hD : 0 < D) (T t : ℚ) (id : ℕ)
    (h : t < T) :
    dynLoop xs D hD T t id =
      (dynPieces xs t (min (t + D) T)) >>= (fun pieces =>
        (dynLoop xs D hD T (min (t + D) T) (id + 1)) >>= (fun rest =>
          pure (⟨id, t, min (t + D) T, pyJoin [' '] pieces⟩ :: rest))) := by
  rw [dynLoop]
  simp [h]

theorem dynLoop_segJson (segs : List Seg) (D : ℚ) (hD : 0 < D) (T t : ℚ) (id : ℕ) :
    dynLoop (segs.map segJson) D hD T t id = .ok (fsLoop segs D hD T t id) := by
  induction t, id using fsLoop.induct segs D hD T with
  | case1 t id h ih =>
    rw [dynLoop_eq_cons _ D hD T t id h, fsLoop_eq_cons segs D hD T t id h,
      dynPieces_segJson, bindE, ih, bindE]
    rfl
  | case2 t id h =>
    rw [dynLoop_eq_nil _ D hD T t id h, fsLoop_eq_nil segs D hD T t id h]

/-- On a document whose `segments` member is a list of well-typed segment
objects, the dynamic run succeeds with the typed result. -/
theorem runAggregator_segJson (segs : List Seg) (D : ℚ) (hD : 0 < D) :
    runAggregator (some (.obj [(segmentsKey, .arr (segs.map segJson))])) D hD =
      .ok (create_fixed_segments segs D hD) := by
  show (dynFromSegsVal (.arr (segs.map segJson)) D hD).mapError AggError.dyn = _
  rw [dynFromSegsVal]
  have htot : (match (segs.map segJson).getLast? with
      | none => Except.ok (JVal.num 0)
      | some v => getItem v endKey) = .ok (.num (totalDuration segs)) := by
    rw [List.getLast?_map]
    rcases hl : segs.getLast? with _ | s
    · simp [totalDuration, hl]
    · show Except.ok (JVal.num s.stop) = Except.ok (JVal.num (totalDuration segs))
      simp [totalDuration, hl]
  rw [htot]
  change Except.mapError AggError.dyn
      (dynLoop (List.map segJson segs) D hD (totalDuration segs) 0 1) =
    Except.ok (create_fixed_segments segs D hD)
  rw [dynLoop_segJson]
  rfl

/-- C4: an empty `segments` list gives `T = 0`, zero windows, and the run
still succeeds, emitting the valid empty document. -/
theorem empty_input_zero_windows (D : ℚ) (hD : 0 < D) :
    totalDuration [] = 0 ∧
    create_fixed_segments [] D hD = [] ∧
    runAggregator (some (.obj [(segmentsKey, .arr [])])) D hD = .ok [] ∧
    outputDoc [] = .obj [(segmentsKey, .arr [])] := by
  have hempty : create_fixed_segments [] D hD = [] := by
    unfold create_fixed_segments
    exact fsLoop_eq_nil [] D hD _ 0 1 (by norm_num [totalDuration])
  refine ⟨rfl, hempty, ?_, rfl⟩
  have h := runAggregator_segJson [] D hD
  rw [hempty] at h
  exact h

/-- Closed witness for C4 at the default window length. -/
theorem empty_input_zero_windows_witness :
    (0 : ℚ) < 5 ∧
    (totalDuration [] = 0 ∧
     create_fixed_segments [] 5 five_pos = [] ∧
     runAggregator (some (.obj [(segmentsKey, .arr [])])) 5 five_pos = .ok [] ∧
     outputDoc [] = .obj [(segmentsKey, .arr [])]) :=
  ⟨five_pos, empty_input_zero_windows 5 five_pos⟩

/-- `mapError AggError.dyn` never produces the parse/schema failures. -/
theorem mapError_dyn_ne (r : Except PyErr (List Window)) :
    r.mapError AggError.dyn ≠ .error .parseError ∧
    r.mapError AggError.dyn ≠ .error .schemaError := by
  cases r <;> simp [Except.mapError]

/-- C5 (amended): the run fails with `ParseError` exactly on malformed input
and with `SchemaError` exactly on a parsed object lacking the `segments` key;
any failure exits with status 1; and an input whose `segments` member is a
list of well-typed segment objects never fails. -/
theorem aggregator_failure_modes :
    (∀ (input : Option JVal) (D : ℚ) (hD : 0 < D),
      runAggregator input D hD = .error .parseError ↔ input = none) ∧
    (∀ (input : Option JVal) (D : ℚ) (hD : 0 < D),
      runAggregator input D hD = .error .schemaError ↔
        ∃ fs, input = some (.obj fs) ∧ dictGet fs segmentsKey = none) ∧
    (∀ (input : Option JVal) (D : ℚ) (hD : 0 < D) (e : AggError),
      runAggregator input D hD = .error e → exitCode input D hD = 1) ∧
    (∀ (segs : List Seg) (D : ℚ) (hD : 0 < D),
      runAggregator (some (.obj [(segmentsKey, .arr (segs.map segJson))])) D hD =
        .ok (create_fixed_segments segs D hD)) := by
  refine ⟨?_, ?_, ?_, runAggregator_segJson⟩
  · intro input D hD
    cases input with
    | none => simp [runAggregator]
    | some data =>
      simp only [runAggregator, Option.some.injEq]
      constructor
      · intro h
        exfalso
        cases data with
        | obj fs =>
          rw [create_fixed_segments_dyn] at h
          rcases hg : dictGet fs segmentsKey with _ | v
          · rw [hg] at h
            exact absurd h (by simp)
          · rw [hg] at h
            exact absurd h (mapError_dyn_ne _).1
        | null => exact absurd h (by simp [create_fixed_segments_dyn])
        | bool b => exact absurd h (by simp [create_fixed_segments_dyn])
        | num q => exact absurd h (by simp [create_fixed_segments_dyn])
        | str s => exact absurd h (by simp [create_fixed_segments_dyn])
        | arr xs => exact absurd h (by simp [create_fixed_segments_dyn])
      · intro h
        exact absurd h (by simp)
  · intro input D hD
    cases input with
    | none =>
      simp only [runAggregator]
      constructor
      · intro h
        exact absurd h (by simp)
      · rintro ⟨fs, h, _⟩
        exact absurd h (by simp)
    | some data =>
      simp only [runAggregator]
      constructor
      · intro h
        cases data with
        | obj fs =>
          rw [create_fixed_segments_dyn] at h
          rcases hg : dictGet fs segmentsKey with _ | v
          · exact ⟨fs, rfl, hg⟩
          · rw [hg] at h
            exact absurd h (mapError_dyn_ne _).2
        | null => exact absurd h (by simp [create_fixed_segments_dyn])
        | bool b => exact absurd h (by simp [create_fixed_segments_dyn])
        | num q => exact absurd h (by simp [create_fixed_segments_dyn])
        | str s => exact absurd h (by simp [create_fixed_segments_dyn])
        | arr xs => exact absurd h (by simp [create_fixed_segments_dyn])
      · rintro ⟨fs, heq, hg⟩
        obtain rfl : data = JVal.obj fs := by injection heq
        simp [create_fixed_segments_dyn, hg]
  · intro input D hD e h
    rw [exitCode, h]

/-- Closed witness for C5 (amended), instantiating each conjunct. -/
theorem aggregator_failure_modes_witness :
    (runAggregator none 5 five_pos = .error .parseError ↔
      (none : Option JVal) = none) ∧
    (runAggregator (some (.obj [])) 5 five_pos = .error .schemaError ↔
      ∃ fs, (some (JVal.obj []) : Option JVal) = some (.obj fs) ∧
        dictGet fs segmentsKey = none) ∧
    exitCode none 5 five_pos = 1 ∧
    runAggregator (some (.obj [(segmentsKey, .arr (exampleSegs.map segJson))]))
        5 five_pos =
      .ok (create_fixed_segments exampleSegs 5 five_pos) :=
  ⟨aggregator_failure_modes.1 none 5 five_pos,
   aggregator_failure_modes.2.1 (some (.obj [])) 5 five_pos,
   aggregator_failure_modes.2.2.1 none 5 five_pos .parseError rfl,
   aggregator_failure_modes.2.2.2 exampleSegs 5 five_pos⟩

/-- C5 counterexample: `{"segments": [42]}` is well-formed JSON containing
the `segments` key, yet the script fails — `42['end']` raises a `TypeError`
at the total-duration access — so "on well-formed input containing `segments`
it does not fail" is false as stated. -/
theorem aggregator_wf_input_still_fails :
    (dictGet [(segmentsKey, JVal.arr [JVal.num 42])] segmentsKey).isSome = true ∧
    runAggregator (some (.obj [(segmentsKey, .arr [.num 42])])) 5 five_pos =
      .error (.dyn .typeError) :=
  ⟨rfl, rfl⟩

/-! ## Output paths (`__main__`, lines 78-85) -/

/-- Python `str.replace(pat, rep)`: scan left to right, replacing each
non-overlapping occurrence of `pat`.  Implemented with a character-count fuel,
which is faithful for the non-empty patterns the script uses (`'.json'`). -/
def pyReplaceF (pat rep : List Char) : ℕ → List Char → List Char
  | _, [] => []
  | 0, s => s
  | fuel + 1, c :: cs =>
    if pat.isPrefixOf (c :: cs) then
      rep ++ pyReplaceF pat rep fuel ((c :: cs).drop pat.length)
    else
      c :: pyReplaceF pat rep fuel cs

def pyReplace (s pat rep : List Char) : List Char := pyReplaceF pat rep s.length s

/-- The pattern `'.json'` of the two `replace` calls. -/
def jsonPat : List Char := ".json".data

/-- `output_json = json_file.replace('.json', '_fixed_segments.json')`. -/
def output_json_path (p : List Char) : List Char :=
  pyReplace p jsonPat "_fixed_segments.json".data

/-- `output_srt = json_file.replace('.json', '_fixed_segments.srt')`. -/
def output_srt_path (p : List Char) : List Char :=
  pyReplace p jsonPat "_fixed_segments.srt".data

/-- Python `pat in s` for strings: some position of `s` starts an occurrence
of `pat`. -/
def hasSub (pat : List Char) : List Char → Bool
  | [] => pat.isEmpty
  | c :: cs => pat.isPrefixOf (c :: cs) || hasSub pat cs

/-- `str.replace` is the identity on a string with no occurrence of the
pattern. -/
theorem pyReplaceF_no_occ (rep : List Char) (s : List Char)
    (hs : hasSub jsonPat s = false) :
    ∀ fuel, pyReplaceF jsonPat rep fuel s = s := by
  induction s with
  | nil => intro fuel; cases fuel <;> rfl
  | cons c cs ih =>
    intro fuel
    have hsplit : jsonPat.isPrefixOf (c :: cs) = false ∧ hasSub jsonPat cs = false := by
      rw [hasSub] at hs
      constructor
      · rcases h1 : jsonPat.isPrefixOf (c :: cs) with _ | _
        · rfl
        · rw [h1] at hs
          simp at hs
      · rcases h2 : hasSub jsonPat cs with _ | _
        · rfl
        · rw [h2] at hs
          simp at hs
    cases fuel with
    | zero => rfl
    | succ fuel =>
      rw [pyReplaceF, hsplit.1]
      simp only [Bool.false_eq_true, if_false]
      rw [ih hsplit.2 fuel]

theorem pyReplaceF_stem (rep : List Char) (stem : List Char) (hs : '.' ∉ stem) :
    pyReplaceF jsonPat rep (stem ++ jsonPat).length (stem ++ jsonPat) =
      stem ++ rep := by
  induction stem with
  | nil =>
    simp only [List.nil_append]
    show pyReplaceF jsonPat rep 6 jsonPat = rep
    rw [show (6 : ℕ) = 5 + 1 from rfl, jsonPat]
    rw [pyReplaceF]
    simp
    rfl
  | cons c st ih =>
    have hc : c ≠ '.' := fun h => hs (h ▸ List.mem_cons_self c st)
    have hpre : jsonPat.isPrefixOf (c :: (st ++ jsonPat)) = false := by
      rw [jsonPat]
      show (('.' == c) && _) = false
      simp [hc.symm]
    rw [List.cons_append, List.length_cons, pyReplaceF, hpre]
    simp only [Bool.false_eq_true, if_false]
    rw [ih (fun h => hs (List.mem_cons_of_mem c h))]
    simp

/-- C6 counterexample: for the input path `input.txt` the `replace` call
finds no `'.json'` occurrence, so both "output" paths equal the input path —
the suffix is not inserted before the extension and the output is not
distinct from the input. -/
theorem output_path_can_equal_input :
    output_json_path "input.txt".data = "input.txt".data ∧
    output_srt_path "input.txt".data = "input.txt".data :=
  ⟨rfl, rfl⟩

/-- C6 (amended): for input paths of the form `stem ++ ".json"` where the
stem contains no dot, the outputs are `stem ++ "_fixed_segments.json"` and
`stem ++ "_fixed_segments.srt"`, both distinct from the input path; for any
input path not containing `'.json'` at all, both computed output paths
coincide with the input path itself. -/
theorem output_paths_insert_suffix (stem : List Char) (hs : '.' ∉ stem) :
    output_json_path (stem ++ jsonPat) = stem ++ "_fixed_segments.json".data ∧
    output_srt_path (stem ++ jsonPat) = stem ++ "_fixed_segments.srt".data ∧
    output_json_path (stem ++ jsonPat) ≠ stem ++ jsonPat ∧
    output_srt_path (stem ++ jsonPat) ≠ stem ++ jsonPat ∧
    ∀ p : List Char, hasSub jsonPat p = false →
      output_json_path p = p ∧ output_srt_path p = p := by
  have hj : output_json_path (stem ++ jsonPat) =
      stem ++ "_fixed_segments.json".data := by
    rw [output_json_path, pyReplace]
    exact pyReplaceF_stem _ stem hs
  have hsrt : output_srt_path (stem ++ jsonPat) =
      stem ++ "_fixed_segments.srt".data := by
    rw [output_srt_path, pyReplace]
    exact pyReplaceF_stem _ stem hs
  refine ⟨hj, hsrt, ?_, ?_, ?_⟩
  · rw [hj]
    intro h
    have h2 := List.append_cancel_left h
    exact absurd h2 (by decide)
  · rw [hsrt]
    intro h
    have h2 := List.append_cancel_left h
    exact absurd h2 (by decide)
  · intro p hp
    exact ⟨pyReplaceF_no_occ _ p hp _, pyReplaceF_no_occ _ p hp _⟩

/-- Closed witness for C6 (amended) at the stem `video`, with the
no-occurrence clause also instantiated at the dotted path `a.b` (which
contains a dot but no `'.json'`). -/
theorem output_paths_insert_suffix_witness :
    '.' ∉ "video".data ∧
    (output_json_path ("video".data ++ jsonPat) =
        "video".data ++ "_fixed_segments.json".data ∧
     output_srt_path ("video".data ++ jsonPat) =
        "video".data ++ "_fixed_segments.srt".data ∧
     output_json_path ("video".data ++ jsonPat) ≠ "video".data ++ jsonPat ∧
     output_srt_path ("video".data ++ jsonPat) ≠ "video".data ++ jsonPat ∧
     ∀ p : List Char, hasSub jsonPat p = false →
       output_json_path p = p ∧ output_srt_path p = p) ∧
    hasSub jsonPat "a.b".data = false ∧
    (output_json_path "a.b".data = "a.b".data ∧
     output_srt_path "a.b".data = "a.b".data) :=
  ⟨by decide, output_paths_insert_suffix "video".data (by decide),
   by decide,
   (output_paths_insert_suffix "video".data (by decide)).2.2.2.2 "a.b".data
     (by decide)⟩

/-! ## SRT rendering (`save_as_srt`, lines 49-65) -/

/-- Decimal rendering of a natural number (Python `str`/`format` digits),
with a structural fuel argument (`n + 1` steps always suffice). -/
def natDigitsAux : ℕ → ℕ → List Char
  | 0, _ => []
  | fuel + 1, n =>
    if n < 10 then [Nat.digitChar n]
    else natDigitsAux fuel (n / 10) ++ [Nat.digitChar (n % 10)]

def natDigits (n : ℕ) : List Char := natDigitsAux (n + 1) n

/-- Zero padding on the left to a minimum width (`{...:02d}`, `{...:06.3f}`). -/
def leftPadZeros (w : ℕ) (s : List Char) : List Char :=
  List.replicate (w - s.length) '0' ++ s

/-- Python float `%`: `q % m = q - m * floor(q / m)`. -/
def pyMod (q m : ℚ) : ℚ := q - m * ⌊q / m⌋

/-- `int(seg[k] // 3600)`. -/
def tsHours (q : ℚ) : ℤ := ⌊q / 3600⌋

/-- `int((seg[k] % 3600) // 60)`. -/
def tsMins (q : ℚ) : ℤ := ⌊pyMod q 3600 / 60⌋

/-- `seg[k] % 60`. -/
def tsSecs (q : ℚ) : ℚ := pyMod q 60

/-- `{n:02d}`. -/
def fmtInt2 (n : ℤ) : List Char :=
  leftPadZeros 2 (if n < 0 then '-' :: natDigits (-n).toNat else natDigits n.toNat)

/-- `{x:06.3f}`: fixed-point with 3 decimals, zero-padded to width 6.  The
binary double is rounded to 3 decimal places; on the rational model this is
`round (q * 1000)` (an exact tie `.0005`, which a binary double never hits,
rounds up here where CPython's half-even display could differ). -/
def fmt63 (q : ℚ) : List Char :=
  let n : ℤ := round (q * 1000)
  if n < 0 then
    leftPadZeros 6
      ('-' :: (natDigits ((-n).toNat / 1000) ++
        '.' :: leftPadZeros 3 (natDigits ((-n).toNat % 1000))))
  else
    leftPadZeros 6
      (natDigits (n.toNat / 1000) ++ '.' :: leftPadZeros 3 (natDigits (n.toNat % 1000)))

/-- One rendered timestamp `HH:MM:SS.mmm`. -/
def fmtTs (q : ℚ) : List Char :=
  fmtInt2 (tsHours q) ++ ':' :: (fmtInt2 (tsMins q) ++ ':' :: fmt63 (tsSecs q))

/-- `save_as_srt`, with the file handle modelled as the accumulated string:
each iteration performs the three `f.write` calls of the source. -/
def save_as_srt (ws : List Window) : List Char :=
  ws.foldl
    (fun acc w =>
      ((acc ++ (natDigits w.id ++ ['\n'])) ++
        (fmtTs w.start ++ " --> ".data ++ fmtTs w.stop ++ ['\n'])) ++
      (w.text ++ ['\n', '\n']))
    []

/-- Specification-side shape of one SRT entry: the entry's id, a line with
the two timestamps separated by `' --> '`, the text, and a blank line. -/
def srtSpecEntry (w : Window) : List Char :=
  natDigits w.id ++ ['\n'] ++ fmtTs w.start ++ " --> ".data ++ fmtTs w.stop ++
    ['\n'] ++ w.text ++ ['\n', '\n']

theorem save_as_srt_flatten (ws : List Window) :
    save_as_srt ws = (ws.map srtSpecEntry).flatten := by
  have key : ∀ (l : List Window) (acc : List Char),
      l.foldl
        (fun acc w =>
          ((acc ++ (natDigits w.id ++ ['\n'])) ++
            (fmtTs w.start ++ " --> ".data ++ fmtTs w.stop ++ ['\n'])) ++
          (w.text ++ ['\n', '\n']))
        acc = acc ++ (l.map srtSpecEntry).flatten := by
    intro l
    induction l with
    | nil => intro acc; simp
    | cons w l ih =>
      intro acc
      rw [List.foldl_cons, ih, List.map_cons, List.flatten_cons]
      simp [srtSpecEntry, List.append_assoc]
  exact key ws []

theorem pyMod_nonneg (q m : ℚ) (hm : 0 < m) : 0 ≤ pyMod q m := by
  rw [pyMod]
  have h1 : (⌊q / m⌋ : ℚ) ≤ q / m := Int.floor_le _
  have h2 : m * (⌊q / m⌋ : ℚ) ≤ m * (q / m) := by
    exact mul_le_mul_of_nonneg_left h1 (le_of_lt hm)
  rw [mul_div_cancel₀ q (ne_of_gt hm)] at h2
  linarith

theorem pyMod_lt (q m : ℚ) (hm : 0 < m) : pyMod q m < m := by
  rw [pyMod]
  have h1 : q / m < ⌊q / m⌋ + 1 := Int.lt_floor_add_one _
  have h2 : m * (q / m) < m * ((⌊q / m⌋ : ℚ) + 1) := by
    exact mul_lt_mul_of_pos_left h1 hm
  rw [mul_div_cancel₀ q (ne_of_gt hm)] at h2
  linarith

/-- The `//`/`%` decomposition used by `save_as_srt` reassembles the input:
`3600 * hours + 60 * mins + secs = t`. -/
theorem ts_decomp (q : ℚ) :
    3600 * (tsHours q : ℚ) + 60 * (tsMins q : ℚ) + tsSecs q = q := by
  rw [tsHours, tsMins, tsSecs]
  have hr : pyMod q 3600 = q - 3600 * (⌊q / 3600⌋ : ℚ) := rfl
  have hmins : ⌊pyMod q 3600 / 60⌋ = ⌊q / 60⌋ - 60 * ⌊q / 3600⌋ := by
    have e1 : pyMod q 3600 / 60 = q / 60 - ((60 * ⌊q / 3600⌋ : ℤ) : ℚ) := by
      rw [hr]
      push_cast
      ring
    rw [e1, Int.floor_sub_int]
  rw [hmins, pyMod]
  push_cast
  ring

theorem tsMins_bounds (q : ℚ) : 0 ≤ tsMins q ∧ tsMins q < 60 := by
  constructor
  · apply Int.floor_nonneg.mpr
    apply div_nonneg (pyMod_nonneg q 3600 (by norm_num)) (by norm_num)
  · have h1 : pyMod q 3600 < 3600 := pyMod_lt q 3600 (by norm_num)
    have h2 : pyMod q 3600 / 60 < 60 := by
      rw [div_lt_iff (by norm_num : (0:ℚ) < 60)]
      linarith
    exact_mod_cast Int.floor_lt.mpr (by exact_mod_cast h2)

theorem tsSecs_bounds (q : ℚ) : 0 ≤ tsSecs q ∧ tsSecs q < 60 :=
  ⟨pyMod_nonneg q 60 (by norm_num), pyMod_lt q 60 (by norm_num)⟩

theorem natDigits_length_pos (n : ℕ) : 1 ≤ (natDigits n).length := by
  rw [natDigits, natDigitsAux]
  by_cases h : n < 10
  · simp [h]
  · simp [h]

theorem natDigitsAux_length_le (fuel : ℕ) :
    ∀ k n, 1 ≤ k → n < 10 ^ k → (natDigitsAux fuel n).length ≤ k := by
  induction fuel with
  | zero =>
    intro k n hk hn
    simp [natDigitsAux]
  | succ fuel ih =>
    intro k n hk hn
    by_cases h : n < 10
    · rw [natDigitsAux, if_pos h]
      simpa using hk
    · rw [natDigitsAux, if_neg h]
      rcases Nat.lt_or_ge k 2 with hk1 | hk1
      · interval_cases k
        norm_num at hn
        omega
      · have hdiv : n / 10 < 10 ^ (k - 1) := by
          rw [Nat.div_lt_iff_lt_mul (by norm_num : 0 < 10)]
          calc n < 10 ^ k := hn
            _ = 10 ^ (k - 1) * 10 := by
              rw [← pow_succ]
              congr 1
              omega
        have := ih (k - 1) (n / 10) (by omega) hdiv
        simp only [List.length_append, List.length_cons, List.length_nil]
        omega

theorem natDigits_length_le (k : ℕ) (hk : 1 ≤ k) :
    ∀ n, n < 10 ^ k → (natDigits n).length ≤ k := by
  intro n hn
  exact natDigitsAux_length_le (n + 1) k n hk hn

theorem leftPadZeros_length (w : ℕ) (s : List Char) :
    (leftPadZeros w s).length = max w s.length := by
  simp [leftPadZeros]
  omega

theorem fmtInt2_length (n : ℤ) (h0 : 0 ≤ n) (h2 : n < 100) :
    (fmtInt2 n).length = 2 := by
  rw [fmtInt2, if_neg (not_lt.mpr h0), leftPadZeros_length]
  have hle : (natDigits n.toNat).length ≤ 2 := by
    apply natDigits_length_le 2 (by norm_num)
    omega
  have hpos := natDigits_length_pos n.toNat
  omega

theorem fmt63_length (q : ℚ) (h0 : 0 ≤ q) (h60 : q < 60) :
    (fmt63 q).length = 6 := by
  have hn0 : 0 ≤ round (q * 1000) := by
    rw [round_eq]
    apply Int.le_floor.mpr
    push_cast
    linarith
  have hn6 : round (q * 1000) ≤ 60000 := by
    rw [round_eq]
    have : ⌊q * 1000 + 1 / 2⌋ < 60001 := by
      apply Int.floor_lt.mpr
      push_cast
      linarith
    omega
  have hni : ¬ round (q * 1000) < 0 := not_lt.mpr hn0
  have hle : (natDigits ((round (q * 1000)).toNat / 1000)).length ≤ 2 := by
    apply natDigits_length_le 2 (by norm_num)
    omega
  have hfr : (natDigits ((round (q * 1000)).toNat % 1000)).length ≤ 3 := by
    apply natDigits_length_le 3 (by norm_num)
    have := Nat.mod_lt ((round (q * 1000)).toNat) (show 0 < 1000 by norm_num)
    omega
  have hfr3 : (leftPadZeros 3 (natDigits ((round (q * 1000)).toNat % 1000))).length = 3 := by
    rw [leftPadZeros_length]
    exact Nat.max_eq_left hfr
  have hbody : ((natDigits ((round (q * 1000)).toNat / 1000)) ++
      '.' :: leftPadZeros 3 (natDigits ((round (q * 1000)).toNat % 1000))).length =
      (natDigits ((round (q * 1000)).toNat / 1000)).length + 4 := by
    simp only [List.length_append, List.length_cons, hfr3]
  simp only [fmt63, hni, if_false]
  rw [leftPadZeros_length, hbody]
  exact Nat.max_eq_left (by omega)

theorem tsHours_nonneg (q : ℚ) (h0 : 0 ≤ q) : 0 ≤ tsHours q := by
  apply Int.floor_nonneg.mpr
  positivity

theorem fmtTs_length (q : ℚ) (h0 : 0 ≤ q) (hh : tsHours q < 100) :
    (fmtTs q).length = 12 := by
  rw [fmtTs]
  simp only [List.length_append, List.length_cons]
  rw [fmtInt2_length _ (tsHours_nonneg q h0) hh,
    fmtInt2_length _ (tsMins_bounds q).1
      (lt_trans (tsMins_bounds q).2 (by norm_num)),
    fmt63_length _ (tsSecs_bounds q).1 (tsSecs_bounds q).2]

/-- C7 counterexample: for a window ending at `59.9999`, the seconds field is
`59.9999 % 60 = 59.9999`, which `%06.3f` rounds to three decimals and renders
as `60.000` — a value not strictly below 60 — so the rendered timestamp is
`00:00:60.000`. -/
theorem srt_seconds_can_render_sixty :
    save_as_srt [⟨1, 0, 599999 / 10000, ['x']⟩] =
      "1\n00:00:00.000 --> 00:00:60.000\nx\n\n".data := by
  have e1 : tsHours 0 = 0 := by rw [tsHours]; norm_num
  have e2 : tsMins 0 = 0 := by rw [tsMins, pyMod]; norm_num
  have e3 : tsSecs 0 = 0 := by rw [tsSecs, pyMod]; norm_num
  have hq1 : ⌊(599999 : ℚ) / 10000 / 3600⌋ = 0 := by
    apply Int.floor_eq_iff.mpr
    constructor <;> norm_num
  have hq2 : ⌊(599999 : ℚ) / 10000 / 60⌋ = 0 := by
    apply Int.floor_eq_iff.mpr
    constructor <;> norm_num
  have f1 : tsHours (599999 / 10000) = 0 := by rw [tsHours]; exact hq1
  have f2 : tsMins (599999 / 10000) = 0 := by
    rw [tsMins, pyMod, hq1,
      show ((599999 : ℚ) / 10000 - 3600 * ((0 : ℤ) : ℚ)) = 599999 / 10000 by
        push_cast
        ring]
    exact hq2
  have f3 : tsSecs (599999 / 10000) = 599999 / 10000 := by
    rw [tsSecs, pyMod, hq2]
    push_cast
    ring
  have g0 : fmt63 (0 : ℚ) = "00.000".data := by
    simp only [fmt63]
    rw [show round ((0 : ℚ) * 1000) = 0 by norm_num]
    decide
  have g1 : fmt63 ((599999 : ℚ) / 10000) = "60.000".data := by
    simp only [fmt63]
    rw [show round ((599999 : ℚ) / 10000 * 1000) = 60000 by
      rw [round_eq]
      apply Int.floor_eq_iff.mpr
      constructor <;> norm_num]
    decide
  rw [save_as_srt_flatten]
  simp only [List.map_cons, List.map_nil, List.flatten_cons, List.flatten_nil,
    List.append_nil, srtSpecEntry, fmtTs]
  rw [e1, e2, e3, f1, f2, f3, g0, g1]
  decide

/-- C7 (amended): `save_as_srt` renders one block per entry — the entry's
stored id (consecutive from 1 for windows produced by
`create_fixed_segments`), the two timestamps separated by `' --> '`, the
text, and a blank line; the `HH:MM:SS.mmm` decomposition satisfies
`3600*hours + 60*mins + secs = t` with `0 ≤ mins < 60` and the seconds value
`t % 60` in `[0, 60)` before rounding (rounding can still display `60.000`);
hours and minutes are zero-padded to two digits and the seconds field to
width 6 with three decimals, giving a 12-character timestamp for nonnegative
times below 100 hours. -/
theorem srt_rendering_format :
    (∀ ws : List Window, save_as_srt ws = (ws.map srtSpecEntry).flatten) ∧
    (∀ q : ℚ, 3600 * (tsHours q : ℚ) + 60 * (tsMins q : ℚ) + tsSecs q = q ∧
      0 ≤ tsMins q ∧ tsMins q < 60 ∧ 0 ≤ tsSecs q ∧ tsSecs q < 60) ∧
    (∀ q : ℚ, 0 ≤ q → tsHours q < 100 → (fmtTs q).length = 12) ∧
    (∀ (segs : List Seg) (D : ℚ) (hD : 0 < D),
      (create_fixed_segments segs D hD).map Window.id =
        List.range' 1 (create_fixed_segments segs D hD).length) := by
  refine ⟨save_as_srt_flatten, ?_, fmtTs_length, ?_⟩
  · intro q
    exact ⟨ts_decomp q, (tsMins_bounds q).1, (tsMins_bounds q).2,
      (tsSecs_bounds q).1, (tsSecs_bounds q).2⟩
  · intro segs D hD
    exact fsLoop_ids segs D hD _ 0 1

/-- Closed witness for C7 (amended) at the worked example. -/
theorem srt_rendering_format_witness :
    save_as_srt (create_fixed_segments exampleSegs 5 five_pos) =
      ((create_fixed_segments exampleSegs 5 five_pos).map srtSpecEntry).flatten ∧
    (3600 * (tsHours 7 : ℚ) + 60 * (tsMins 7 : ℚ) + tsSecs 7 = 7 ∧
      0 ≤ tsMins 7 ∧ tsMins (7 : ℚ) < 60 ∧ 0 ≤ tsSecs 7 ∧ tsSecs (7 : ℚ) < 60) ∧
    (fmtTs (7 : ℚ)).length = 12 ∧
    (create_fixed_segments exampleSegs 5 five_pos).map Window.id =
      List.range' 1 (create_fixed_segments exampleSegs 5 five_pos).length :=
  ⟨srt_rendering_format.1 _,
   srt_rendering_format.2.1 7,
   srt_rendering_format.2.2.1 7 (by norm_num)
     (by rw [tsHours, show ⌊(7 : ℚ) / 3600⌋ = 0 from by
          apply Int.floor_eq_iff.mpr
          constructor <;> norm_num]
         norm_num),
   srt_rendering_format.2.2.2 exampleSegs 5 five_pos⟩

/-! ## Round-trip (C3): strip/join interaction -/

/-- Reading the aggregator's own JSON output back as input segments keeps
`start`, `end` and `text` and drops `id`. -/
def windowToSeg (w : Window) : Seg := ⟨w.start, w.stop, w.text⟩

theorem dropWhile_eq_self_of_head (l : List Char)
    (h : ∀ c ∈ l.head?, c.isWhitespace = false) :
    l.dropWhile Char.isWhitespace = l := by
  cases l with
  | nil => rfl
  | cons c cs =>
    have hc := h c rfl
    rw [List.dropWhile_cons_of_neg (by simp [hc])]

theorem head_dropWhile_not_ws (l : List Char) :
    ∀ c ∈ (l.dropWhile Char.isWhitespace).head?, c.isWhitespace = false := by
  induction l with
  | nil => intro c hc; simp at hc
  | cons a as ih =>
    intro c hc
    by_cases ha : a.isWhitespace
    · rw [List.dropWhile_cons_of_pos (by simpa using ha)] at hc
      exact ih c hc
    · rw [List.dropWhile_cons_of_neg (by simpa using ha)] at hc
      simp only [List.head?_cons, Option.mem_def, Option.some.injEq] at hc
      rw [← hc]
      simpa using ha

/-- A stripped string neither starts nor ends with whitespace. -/
theorem pyStrip_clean (l : List Char) :
    (∀ c ∈ (pyStrip l).head?, c.isWhitespace = false) ∧
    (∀ c ∈ (pyStrip l).getLast?, c.isWhitespace = false) := by
  rw [pyStrip]
  constructor
  · intro c hc
    rw [List.head?_reverse] at hc
    -- c is the last of `dropWhile ws (reverse (dropWhile ws l))`, i.e. the
    -- last of `reverse (dropWhile ws l)` (a nonempty dropWhile is a suffix),
    -- i.e. the head of `dropWhile ws l`.
    rcases hB : ((l.dropWhile Char.isWhitespace).reverse.dropWhile Char.isWhitespace) with _ | ⟨b, bs⟩
    · rw [hB] at hc
      simp at hc
    · have hsuf := List.dropWhile_suffix (l := (l.dropWhile Char.isWhitespace).reverse)
        (p := Char.isWhitespace)
      rw [hB] at hc hsuf
      obtain ⟨pre, hpre⟩ := hsuf
      have hne : (b :: bs) ≠ [] := by simp
      have hlast : (l.dropWhile Char.isWhitespace).reverse.getLast? = (b :: bs).getLast? := by
        rw [← hpre]
        exact List.getLast?_append_of_ne_nil pre hne
      rw [List.getLast?_reverse] at hlast
      exact head_dropWhile_not_ws l c (by rw [hlast]; exact hc)
  · intro c hc
    rw [List.getLast?_reverse] at hc
    exact head_dropWhile_not_ws _ c hc

/-- Stripping a string that neither starts nor ends with whitespace is the
identity. -/
theorem pyStrip_of_clean (l : List Char)
    (hh : ∀ c ∈ l.head?, c.isWhitespace = false)
    (hl : ∀ c ∈ l.getLast?, c.isWhitespace = false) :
    pyStrip l = l := by
  rw [pyStrip, dropWhile_eq_self_of_head l hh]
  rw [dropWhile_eq_self_of_head l.reverse (by
    intro c hc
    rw [List.head?_reverse] at hc
    exact hl c hc)]
  exact List.reverse_reverse l

theorem pyJoin_ne_nil (sep : List Char) (pieces : List (List Char))
    (h : pieces ≠ []) (hne : ∀ p ∈ pieces, p ≠ []) : pyJoin sep pieces ≠ [] := by
  match pieces with
  | [] => exact absurd rfl h
  | [p] => exact hne p (by simp)
  | p :: q :: rest =>
    rw [pyJoin]
    have hp : p ≠ [] := hne p (by simp)
    rcases p with _ | ⟨c, cs⟩
    · exact absurd rfl hp
    · simp

theorem pyJoin_head (sep : List Char) (p : List Char) (rest : List (List Char))
    (hp : p ≠ []) : (pyJoin sep (p :: rest)).head? = p.head? := by
  match rest with
  | [] => rfl
  | q :: rest =>
    rw [pyJoin]
    rcases p with _ | ⟨c, cs⟩
    · exact absurd rfl hp
    · simp

theorem pyJoin_last (sep : List Char) :
    ∀ (pieces : List (List Char)) (q : List Char), pieces.getLast? = some q →
      (∀ p ∈ pieces, p ≠ []) → (pyJoin sep pieces).getLast? = q.getLast? := by
  intro pieces
  induction pieces with
  | nil => intro q hq _; simp at hq
  | cons p rest ih =>
    intro q hq hne
    match rest with
    | [] =>
      simp only [List.getLast?_singleton, Option.some.injEq] at hq
      rw [← hq]
      rfl
    | r :: rest' =>
      rw [List.getLast?_cons_cons] at hq
      have hjoin : pyJoin sep (r :: rest') ≠ [] :=
        pyJoin_ne_nil sep _ (by simp) (fun x hx => hne x (List.mem_cons_of_mem p hx))
      rw [pyJoin, List.getLast?_append_of_ne_nil _ hjoin]
      exact ih q hq (fun x hx => hne x (List.mem_cons_of_mem p hx))

/-- Joining nonempty whitespace-clean pieces with single spaces yields a
string that stripping leaves unchanged. -/
theorem pyStrip_pyJoin (pieces : List (List Char))
    (hne : ∀ p ∈ pieces, p ≠ [])
    (hh : ∀ p ∈ pieces, ∀ c ∈ p.head?, c.isWhitespace = false)
    (hl : ∀ p ∈ pieces, ∀ c ∈ p.getLast?, c.isWhitespace = false) :
    pyStrip (pyJoin [' '] pieces) = pyJoin [' '] pieces := by
  match pieces with
  | [] => rfl
  | p :: rest =>
    apply pyStrip_of_clean
    · rw [pyJoin_head [' '] p rest (hne p (by simp))]
      exact hh p (by simp)
    · have hqlast : (p :: rest).getLast? = some ((p :: rest).getLast (by simp)) :=
        List.getLast?_eq_getLast _ _
      rw [pyJoin_last [' '] (p :: rest) _ hqlast hne]
      exact hl _ (List.getLast_mem _)

/-- With no whitespace-only segment texts, every window text is already
stripped. -/
theorem windowText_strip_eq (segs : List Seg) (lo hi : ℚ)
    (hclean : ∀ s ∈ segs, pyStrip s.text ≠ []) :
    pyStrip (windowText segs lo hi) = windowText segs lo hi := by
  rw [windowText, collectPieces_eq]
  apply pyStrip_pyJoin
  · intro p hp
    obtain ⟨s, hs, rfl⟩ := List.mem_map.mp hp
    exact hclean s (List.mem_filter.mp hs).1
  · intro p hp
    obtain ⟨s, hs, rfl⟩ := List.mem_map.mp hp
    exact (pyStrip_clean s.text).1
  · intro p hp
    obtain ⟨s, hs, rfl⟩ := List.mem_map.mp hp
    exact (pyStrip_clean s.text).2

/-- In a pairwise-ordered window list with positive widths, a window's own
midpoint test selects exactly that window from the re-read segment list. -/
theorem filter_self_window (ws : List Window)
    (hpw : List.Pairwise (fun a b => a.stop ≤ b.start) ws)
    (hwd : ∀ v ∈ ws, v.start < v.stop) :
    ∀ (i : ℕ) (hi : i < ws.length),
      (ws.map windowToSeg).filter
        (fun s => ws[i].start ≤ midSeg s ∧ midSeg s < ws[i].stop) =
      [windowToSeg ws[i]] := by
  induction ws with
  | nil =>
    intro i hi
    simp at hi
  | cons v rest ih =>
    intro i hi
    match i with
    | 0 =>
      simp only [List.getElem_cons_zero, List.map_cons, List.filter_cons]
      have hv : v.start < v.stop := hwd v (by simp)
      have hmid : v.start ≤ midSeg (windowToSeg v) ∧ midSeg (windowToSeg v) < v.stop := by
        show v.start ≤ (v.start + v.stop) / 2 ∧ (v.start + v.stop) / 2 < v.stop
        constructor <;> linarith
      rw [if_pos (by simpa using hmid)]
      have hrest : (rest.map windowToSeg).filter
          (fun s => v.start ≤ midSeg s ∧ midSeg s < v.stop) = [] := by
        rw [List.filter_eq_nil]
        intro s hs
        obtain ⟨r, hr, rfl⟩ := List.mem_map.mp hs
        have hvr : v.stop ≤ r.start := (List.pairwise_cons.mp hpw).1 r hr
        have hrw : r.start < r.stop := hwd r (List.mem_cons_of_mem v hr)
        have : ¬ midSeg (windowToSeg r) < v.stop := by
          show ¬ (r.start + r.stop) / 2 < v.stop
          push_neg
          have : r.start ≤ (r.start + r.stop) / 2 := by linarith
          linarith
        simpa using fun h => this
      rw [hrest]
    | j + 1 =>
      simp only [List.getElem_cons_succ, List.map_cons, List.filter_cons]
      have hj : j < rest.length := by simpa using hi
      have hmem : rest[j] ∈ rest := List.getElem_mem hj
      have hvr : v.stop ≤ rest[j].start := (List.pairwise_cons.mp hpw).1 _ hmem
      have hv : v.start < v.stop := hwd v (by simp)
      have hnot : ¬ (rest[j].start ≤ midSeg (windowToSeg v) ∧
          midSeg (windowToSeg v) < rest[j].stop) := by
        rintro ⟨h1, _⟩
        have : (v.start + v.stop) / 2 < v.stop := by linarith
        have h2 : midSeg (windowToSeg v) < v.stop := this
        have := le_trans hvr h1
        exact absurd (lt_of_lt_of_le h2 (le_trans hvr (le_refl _))) (not_lt.mpr h1)
      rw [if_neg (by simpa using hnot)]
      exact ih (List.pairwise_cons.mp hpw).2
        (fun u hu => hwd u (List.mem_cons_of_mem v hu)) j hj

/-- C3 (amended): recomputing windows from the aggregator's own output is the
identity, provided no input segment's text is entirely whitespace. -/
theorem roundtrip_idempotent (segs : List Seg) (D : ℚ) (hD : 0 < D)
    (hclean : ∀ s ∈ segs, pyStrip s.text ≠ []) :
    create_fixed_segments ((create_fixed_segments segs D hD).map windowToSeg) D hD =
      create_fixed_segments segs D hD := by
  by_cases hpos : 0 < totalDuration segs
  · have hws : create_fixed_segments segs D hD =
        fsLoop segs D hD (totalDuration segs) 0 1 := rfl
    have hne : create_fixed_segments segs D hD ≠ [] := by
      rw [hws]
      exact fsLoop_ne_nil segs D hD _ 0 1 hpos
    -- the re-read input has the same total duration
    have hT2 : totalDuration ((create_fixed_segments segs D hD).map windowToSeg) =
        totalDuration segs := by
      have hlast := fsLoop_last_stop segs D hD (totalDuration segs) 0 1 hpos
      rw [← hws] at hlast
      rw [totalDuration, List.getLast?_map]
      rcases hl : (create_fixed_segments segs D hD).getLast? with _ | w
      · rw [hl] at hlast
        simp at hlast
      · rw [hl] at hlast
        have hw : w.stop = totalDuration segs := by simpa using hlast
        simpa [windowToSeg] using hw
    -- equal skeletons
    have hskel : (create_fixed_segments ((create_fixed_segments segs D hD).map windowToSeg) D hD).map skel =
        (create_fixed_segments segs D hD).map skel := by
      show (fsLoop ((create_fixed_segments segs D hD).map windowToSeg) D hD
          (totalDuration ((create_fixed_segments segs D hD).map windowToSeg)) 0 1).map skel = _
      rw [hT2, hws]
      exact fsLoop_skel _ segs D hD _ 0 1
    have hlen : (create_fixed_segments ((create_fixed_segments segs D hD).map windowToSeg) D hD).length =
        (create_fixed_segments segs D hD).length := by
      have := congrArg List.length hskel
      simpa using this
    apply List.ext_getElem hlen
    intro i hi1 hi2
    have hsk : skel ((create_fixed_segments ((create_fixed_segments segs D hD).map windowToSeg) D hD)[i]) =
        skel ((create_fixed_segments segs D hD)[i]) := by
      have h1 := congrArg (fun l => l[i]?) hskel
      simp only [List.getElem?_map] at h1
      rw [List.getElem?_eq_getElem hi1, List.getElem?_eq_getElem hi2] at h1
      simpa using h1
    obtain ⟨hid, hstart, hstop⟩ : ((create_fixed_segments ((create_fixed_segments segs D hD).map windowToSeg) D hD)[i]).id =
          ((create_fixed_segments segs D hD)[i]).id ∧
        ((create_fixed_segments ((create_fixed_segments segs D hD).map windowToSeg) D hD)[i]).start =
          ((create_fixed_segments segs D hD)[i]).start ∧
        ((create_fixed_segments ((create_fixed_segments segs D hD).map windowToSeg) D hD)[i]).stop =
          ((create_fixed_segments segs D hD)[i]).stop := by
      have := hsk
      rw [skel, skel, Prod.mk.injEq, Prod.mk.injEq] at this
      exact ⟨this.1, this.2.1, this.2.2⟩
    -- text of the recomputed window
    have hmem2 : (create_fixed_segments ((create_fixed_segments segs D hD).map windowToSeg) D hD)[i] ∈
        create_fixed_segments ((create_fixed_segments segs D hD).map windowToSeg) D hD :=
      List.getElem_mem hi1
    have htext2 := (fsLoop_mem ((create_fixed_segments segs D hD).map windowToSeg) D hD
        (totalDuration ((create_fixed_segments segs D hD).map windowToSeg)) 0 1 _ hmem2).2.2.2.2
    have hmem1 : (create_fixed_segments segs D hD)[i] ∈ create_fixed_segments segs D hD :=
      List.getElem_mem hi2
    have htext1 := (fsLoop_mem segs D hD (totalDuration segs) 0 1 _ hmem1).2.2.2.2
    -- the filter over the re-read segments picks exactly window i
    have hfilter := filter_self_window (create_fixed_segments segs D hD)
      (fsLoop_pairwise segs D hD _ 0 1)
      (fun v hv => (fsLoop_mem segs D hD _ 0 1 v hv).2.1) i hi2
    have htext : ((create_fixed_segments ((create_fixed_segments segs D hD).map windowToSeg) D hD)[i]).text =
        ((create_fixed_segments segs D hD)[i]).text := by
      rw [htext2, hstart, hstop, windowText, collectPieces_eq, hfilter]
      show pyJoin [' '] [pyStrip ((create_fixed_segments segs D hD)[i]).text] = _
      show pyStrip ((create_fixed_segments segs D hD)[i]).text = _
      rw [htext1]
      exact windowText_strip_eq segs _ _ hclean
    cases hw1 : (create_fixed_segments ((create_fixed_segments segs D hD).map windowToSeg) D hD)[i]
    cases hw2 : (create_fixed_segments segs D hD)[i]
    rw [hw1, hw2] at hid hstart hstop htext
    simp_all
  · have h1 : create_fixed_segments segs D hD = [] :=
      fsLoop_eq_nil segs D hD _ 0 1 hpos
    rw [h1]
    show fsLoop [] D hD (totalDuration []) 0 1 = []
    apply fsLoop_eq_nil
    rw [totalDuration]
    norm_num

/-- Input with a whitespace-only segment text, breaking round-trip
idempotence. -/
def wsSegs : List Seg := [⟨0, 3, ['a']⟩, ⟨3, 4, [' ']⟩]

/-- C3 counterexample: with a whitespace-only text `" "` in the window
`[0,4)`, the first pass emits the text `"a "` (trailing space from joining
with the stripped-empty piece), and the second pass strips it to `"a"`, so
recomputing windows from the output changes the text. -/
theorem roundtrip_fails_on_whitespace :
    create_fixed_segments ((create_fixed_segments wsSegs 5 five_pos).map windowToSeg)
        5 five_pos ≠
      create_fixed_segments wsSegs 5 five_pos := by
  have h1 : create_fixed_segments wsSegs 5 five_pos = [⟨1, 0, 4, ['a', ' ']⟩] := by
    unfold create_fixed_segments
    rw [fsLoop]
    norm_num [totalDuration, wsSegs, windowText, collectPieces, midSeg, pyJoin]
    rw [fsLoop]
    norm_num
    decide
  have h2 : create_fixed_segments [⟨(0 : ℚ), 4, ['a', ' ']⟩] 5 five_pos =
      [⟨1, 0, 4, ['a']⟩] := by
    unfold create_fixed_segments
    rw [fsLoop]
    norm_num [totalDuration, windowText, collectPieces, midSeg, pyJoin]
    rw [fsLoop]
    norm_num
    decide
  rw [h1]
  show create_fixed_segments [⟨(0 : ℚ), 4, ['a', ' ']⟩] 5 five_pos ≠ _
  rw [h2]
  decide

/-- Closed witness for C3 (amended) at the worked example. -/
theorem roundtrip_idempotent_witness :
    (∀ s ∈ exampleSegs, pyStrip s.text ≠ []) ∧
    create_fixed_segments ((create_fixed_segments exampleSegs 5 five_pos).map windowToSeg)
        5 five_pos =
      create_fixed_segments exampleSegs 5 five_pos :=
  ⟨by decide, roundtrip_idempotent exampleSegs 5 five_pos (by decide)⟩

/-! ## Dependency-aware processing orchestrator (C8, C9)

Modelled from the spec: the repository ships only behaviour tests for the
orchestrator (`src/tests/task13-*.py`, `src/tests/task14-*.py`); no
implementation is under `src/`.  The state machine below follows §4.2, §5 and
§7 of the specification: a job in `processing` runs two branches (frame
extraction, transcription); an external-call attempt yields
`Ready | Waiting | Failed`; `Waiting` increments the branch's retry counter
and schedules a retry while the counter stays below the configured maximum,
exhaustion or a hard failure latches the branch and the job into `failed`
with a single terminal error entry, and `processing → analyzing` fires when
the second branch reaches `done`. -/

inductive BranchId where
  | frames : BranchId
  | transcript : BranchId
deriving DecidableEq, Repr

inductive BranchState where
  | pending : BranchState
  | waitingDep : BranchState
  | done : BranchState
  | failedB : BranchState
deriving DecidableEq, Repr

/-- Modelled from the spec: `DependencyStatus` — transient value returned by
an external call attempt. -/
inductive DepStatus where
  | ready : DepStatus
  | waiting (estimatedSeconds : ℚ) : DepStatus
  | failedS (reason : List Char) : DepStatus
deriving DecidableEq, Repr

/-- A terminal failure record in the `errors` collection. -/
inductive ErrEntry where
  | branchFailure (b : BranchId) (reason : List Char) : ErrEntry
  | retryExhausted (b : BranchId) : ErrEntry
  | analysisFailure : ErrEntry
deriving DecidableEq, Repr

inductive Stage where
  | idle : Stage
  | uploading : Stage
  | processing : Stage
  | analyzing : Stage
  | complete : Stage
  | failedJ : Stage
deriving DecidableEq, Repr

/-- Modelled from the spec: the `ProcessingJob` record (the fields the
claims concern). -/
structure Job where
  stage : Stage
  frames : BranchState
  transcript : BranchState
  framesRetry : ℕ
  transcriptRetry : ℕ
  errors : List ErrEntry
deriving DecidableEq, Repr

def branchOf (j : Job) : BranchId → BranchState
  | .frames => j.frames
  | .transcript => j.transcript

def retryOf (j : Job) : BranchId → ℕ
  | .frames => j.framesRetry
  | .transcript => j.transcriptRetry

def setBranch (j : Job) : BranchId → BranchState → Job
  | .frames, s => { j with frames := s }
  | .transcript, s => { j with transcript := s }

def setRetry (j : Job) : BranchId → ℕ → Job
  | .frames, r => { j with framesRetry := r }
  | .transcript, r => { j with transcriptRetry := r }

/-- The branch whose entry originated an error record, if any. -/
def errBranch : ErrEntry → Option BranchId
  | .branchFailure b _ => some b
  | .retryExhausted b => some b
  | .analysisFailure => none

inductive Event where
  | attempt (b : BranchId) (st : DepStatus) : Event
  | analysisOk : Event
  | analysisFail : Event

/-- Modelled from the spec: one orchestrator reaction to an external-call
outcome or analysis completion.  `Waiting` with retry budget left only bumps
the counter (errors untouched); the exhausting `Waiting` or a hard `Failed`
latches branch and job into failure with one terminal entry; `Ready` marks
the branch done and fires `processing → analyzing` exactly when the second
branch completes. -/
def step (maxRetries : ℕ) (j : Job) : Event → Job
  | .attempt b st =>
    if j.stage = .processing ∧ (branchOf j b = .pending ∨ branchOf j b = .waitingDep) then
      match st with
      | .ready =>
        let j' := setBranch j b .done
        if j'.frames = .done ∧ j'.transcript = .done then
          { j' with stage := .analyzing }
        else j'
      | .waiting _ =>
        if retryOf j b + 1 < maxRetries then
          setRetry (setBranch j b .waitingDep) b (retryOf j b + 1)
        else
          { setRetry (setBranch j b .failedB) b (retryOf j b + 1) with
              stage := .failedJ, errors := j.errors ++ [.retryExhausted b] }
      | .failedS reason =>
        { setBranch j b .failedB with
            stage := .failedJ, errors := j.errors ++ [.branchFailure b reason] }
    else j
  | .analysisOk => if j.stage = .analyzing then { j with stage := .complete } else j
  | .analysisFail =>
    if j.stage = .analyzing then
      { j with stage := .failedJ, errors := j.errors ++ [.analysisFailure] }
    else j

/-- `submitUpload` creates the job and immediately moves it into
`processing`, both branches pending. -/
def initJob : Job := ⟨.processing, .pending, .pending, 0, 0, []⟩

/-- Jobs the orchestrator can actually be in. -/
inductive Reachable (maxRetries : ℕ) : Job → Prop
  | init : Reachable maxRetries initJob
  | next (j : Job) (e : Event) : Reachable maxRetries j →
      Reachable maxRetries (step maxRetries j e)

def runSteps (maxRetries : ℕ) (j : Job) (es : List Event) : Job :=
  es.foldl (step maxRetries) j

theorem setBranch_stage (j : Job) (b : BranchId) (s : BranchState) :
    (setBranch j b s).stage = j.stage := by
  cases b <;> rfl

theorem setBranch_errors (j : Job) (b : BranchId) (s : BranchState) :
    (setBranch j b s).errors = j.errors := by
  cases b <;> rfl

theorem setRetry_stage (j : Job) (b : BranchId) (r : ℕ) :
    (setRetry j b r).stage = j.stage := by
  cases b <;> rfl

theorem setRetry_errors (j : Job) (b : BranchId) (r : ℕ) :
    (setRetry j b r).errors = j.errors := by
  cases b <;> rfl

theorem branchOf_setRetry (j : Job) (b b' : BranchId) (r : ℕ) :
    branchOf (setRetry j b r) b' = branchOf j b' := by
  cases b <;> cases b' <;> rfl

theorem branchOf_setBranch_self (j : Job) (b : BranchId) (s : BranchState) :
    branchOf (setBranch j b s) b = s := by
  cases b <;> rfl

theorem branchOf_setBranch_other (j : Job) (b b' : BranchId) (s : BranchState)
    (h : b' ≠ b) : branchOf (setBranch j b s) b' = branchOf j b' := by
  cases b <;> cases b' <;> first | rfl | exact absurd rfl h

/-- A job latched into `failed` never changes again. -/
theorem step_of_failedJ (m : ℕ) (j : Job) (e : Event) (h : j.stage = .failedJ) :
    step m j e = j := by
  cases e with
  | attempt b st => simp [step, h]
  | analysisOk => simp [step, h]
  | analysisFail => simp [step, h]

/-- While a job is still `processing`, the two branches are never both
`done` (the join fires the instant the second branch completes). -/
theorem inv_not_both_done (m : ℕ) (j : Job) (h : Reachable m j) :
    j.stage = .processing → ¬ (j.frames = .done ∧ j.transcript = .done) := by
  induction h with
  | init => simp [initJob]
  | next j e hr ih =>
    cases e with
    | attempt b st =>
      by_cases hg : j.stage = .processing ∧
          (branchOf j b = .pending ∨ branchOf j b = .waitingDep)
      · cases st with
        | ready =>
          simp only [step, if_pos hg]
          by_cases hboth : (setBranch j b .done).frames = .done ∧
              (setBranch j b .done).transcript = .done
          · rw [if_pos hboth]
            intro hcon
            simp at hcon
          · rw [if_neg hboth]
            intro _
            exact hboth
        | waiting est =>
          simp only [step, if_pos hg]
          by_cases hbud : retryOf j b + 1 < m
          · rw [if_pos hbud]
            intro _
            cases b <;> simp [setRetry, setBranch] <;> intro hcon <;> simp_all
          · rw [if_neg hbud]
            intro hcon
            cases b <;> simp [setRetry, setBranch] at hcon
        | failedS r =>
          simp only [step, if_pos hg]
          intro hcon
          cases b <;> simp [setBranch] at hcon
      · simp only [step, if_neg hg]
        exact ih
    | analysisOk =>
      by_cases hj : j.stage = .analyzing
      · simp [step, hj]
      · simp only [step, if_neg hj]
        exact ih
    | analysisFail =>
      by_cases hj : j.stage = .analyzing
      · simp [step, hj]
      · simp only [step, if_neg hj]
        exact ih

/-- A failed branch forces the whole job into `failed` (and this is latched). -/
theorem inv_branch_failed (m : ℕ) (j : Job) (h : Reachable m j) :
    (j.frames = .failedB ∨ j.transcript = .failedB) → j.stage = .failedJ := by
  induction h with
  | init => simp [initJob]
  | next j e hr ih =>
    cases e with
    | attempt b st =>
      by_cases hg : j.stage = .processing ∧
          (branchOf j b = .pending ∨ branchOf j b = .waitingDep)
      · have hnofail : j.frames ≠ .failedB ∧ j.transcript ≠ .failedB := by
          constructor <;> intro hcon
          · exact absurd (hg.1.symm.trans (ih (Or.inl hcon))) (by simp)
          · exact absurd (hg.1.symm.trans (ih (Or.inr hcon))) (by simp)
        cases st with
        | ready =>
          simp only [step, if_pos hg]
          split_ifs with hboth
          · intro hfb
            exfalso
            rcases hfb with hfb | hfb
            · simp only [] at hfb
              exact absurd (hboth.1.symm.trans hfb) (by simp)
            · simp only [] at hfb
              exact absurd (hboth.2.symm.trans hfb) (by simp)
          · intro hfb
            exfalso
            rcases hfb with hfb | hfb
            · cases b
              · simp [setBranch] at hfb
              · simp [setBranch] at hfb
                exact hnofail.1 hfb
            · cases b
              · simp [setBranch] at hfb
                exact hnofail.2 hfb
              · simp [setBranch] at hfb
        | waiting est =>
          simp only [step, if_pos hg]
          split_ifs with hbud
          · intro hfb
            exfalso
            rcases hfb with hfb | hfb
            · cases b
              · simp [setRetry, setBranch] at hfb
              · simp [setRetry, setBranch] at hfb
                exact hnofail.1 hfb
            · cases b
              · simp [setRetry, setBranch] at hfb
                exact hnofail.2 hfb
              · simp [setRetry, setBranch] at hfb
          · intro _
            trivial
        | failedS r =>
          simp only [step, if_pos hg]
          intro _
          trivial
      · simp only [step, if_neg hg]
        exact ih
    | analysisOk =>
      by_cases hj : j.stage = .analyzing
      · simp only [step, if_pos hj]
        intro hfb
        exfalso
        have hfj : j.stage = .failedJ := ih (by simpa using hfb)
        exact absurd (hj.symm.trans hfj) (by simp)
      · simp only [step, if_neg hj]
        exact ih
    | analysisFail =>
      by_cases hj : j.stage = .analyzing
      · simp only [step, if_pos hj]
        intro _
        trivial
      · simp only [step, if_neg hj]
        exact ih

/-- The `errors` collection holds at most one entry per branch, and none at
all for a branch that has not failed. -/
theorem inv_error_counts (m : ℕ) (j : Job) (h : Reachable m j) :
    ∀ b, (j.errors.filter (fun er => errBranch er = some b)).length ≤ 1 ∧
      (branchOf j b ≠ .failedB →
        (j.errors.filter (fun er => errBranch er = some b)).length = 0) := by
  induction h with
  | init =>
    intro b
    simp [initJob]
  | next j e hr ih =>
    cases e with
    | attempt b st =>
      by_cases hg : j.stage = .processing ∧
          (branchOf j b = .pending ∨ branchOf j b = .waitingDep)
      · have hnofail : j.frames ≠ .failedB ∧ j.transcript ≠ .failedB := by
          constructor <;> intro hcon
          · exact absurd (hg.1.symm.trans (inv_branch_failed m j hr (Or.inl hcon)))
              (by simp)
          · exact absurd (hg.1.symm.trans (inv_branch_failed m j hr (Or.inr hcon)))
              (by simp)
        have hc0 : ∀ b', (j.errors.filter (fun er => errBranch er = some b')).length = 0 := by
          intro b'
          apply (ih b').2
          cases b'
          · exact hnofail.1
          · exact hnofail.2
        cases st with
        | ready =>
          intro b'
          simp only [step, if_pos hg]
          split_ifs with hboth
          · simp only [setBranch_errors]
            exact ⟨by rw [hc0 b']; omega, fun _ => hc0 b'⟩
          · rw [setBranch_errors]
            exact ⟨by rw [hc0 b']; omega, fun _ => hc0 b'⟩
        | waiting est =>
          intro b'
          simp only [step, if_pos hg]
          split_ifs with hbud
          · rw [setRetry_errors, setBranch_errors]
            exact ⟨by rw [hc0 b']; omega, fun _ => hc0 b'⟩
          · simp only []
            rw [List.filter_append]
            by_cases hbb : b' = b
            · subst hbb
              have hone : ([ErrEntry.retryExhausted b'].filter
                  (fun er => errBranch er = some b')).length = 1 := by
                simp [errBranch]
              constructor
              · simp only [List.length_append, hc0 b', hone]
                omega
              · intro hbr
                exfalso
                apply hbr
                have hfb : branchOf
                    ({ setRetry (setBranch j b' BranchState.failedB) b' (retryOf j b' + 1) with
                        stage := Stage.failedJ,
                        errors := j.errors ++ [ErrEntry.retryExhausted b'] }) b' =
                    .failedB := by
                  cases b' <;> simp [branchOf, setRetry, setBranch]
                exact hfb
            · have hbb' : ¬ (b = b') := fun hcon => hbb hcon.symm
              have h1 : ([ErrEntry.retryExhausted b].filter
                  (fun er => errBranch er = some b')).length = 0 := by
                simp [errBranch, hbb']
              constructor
              · simp only [List.length_append, h1, hc0 b']
                omega
              · intro _
                simp only [List.length_append, h1, hc0 b']
        | failedS r =>
          intro b'
          simp only [step, if_pos hg]
          rw [List.filter_append]
          by_cases hbb : b' = b
          · subst hbb
            have hone : ([ErrEntry.branchFailure b' r].filter
                (fun er => errBranch er = some b')).length = 1 := by
              simp [errBranch]
            constructor
            · simp only [List.length_append, hc0 b', hone]
              omega
            · intro hbr
              exfalso
              apply hbr
              have hfb : branchOf
                  ({ setBranch j b' BranchState.failedB with
                      stage := Stage.failedJ,
                      errors := j.errors ++ [ErrEntry.branchFailure b' r] }) b' =
                  .failedB := by
                cases b' <;> simp [branchOf, setBranch]
              exact hfb
          · have hbb' : ¬ (b = b') := fun hcon => hbb hcon.symm
            have h1 : ([ErrEntry.branchFailure b r].filter
                (fun er => errBranch er = some b')).length = 0 := by
              simp [errBranch, hbb']
            constructor
            · simp only [List.length_append, h1, hc0 b']
              omega
            · intro _
              simp only [List.length_append, h1, hc0 b']
      · simp only [step, if_neg hg]
        exact ih
    | analysisOk =>
      by_cases hj : j.stage = .analyzing
      · intro b'
        simp only [step, if_pos hj]
        exact ih b'
      · simp only [step, if_neg hj]
        exact ih
    | analysisFail =>
      by_cases hj : j.stage = .analyzing
      · intro b'
        simp only [step, if_pos hj]
        rw [List.filter_append]
        have h1 : ([ErrEntry.analysisFailure].filter
            (fun er => errBranch er = some b')).length = 0 := by
          simp [List.filter, errBranch]
        obtain ⟨ha, hb⟩ := ih b'
        exact ⟨by simp only [List.length_append, h1]; omega, fun hx => by
          simp only [List.length_append, h1]
          have := hb (by simpa using hx)
          omega⟩
      · simp only [step, if_neg hj]
        exact ih

/-- C8 counterexample: with a retry maximum of 2, the second consecutive
`Waiting` response on the transcription branch exhausts the budget, and that
external-call attempt — which returned `Waiting` — appends a (retry
exhaustion) entry to `errors`.  So "every external-call attempt that returns
`Waiting` leaves `errors` unchanged" is false as stated: the exhausting
attempt does alter `errors` (with a terminal entry, not a `Waiting` record). -/
theorem waiting_attempt_populates_errors :
    Reachable 2 (step 2 initJob (.attempt .transcript (.waiting 3))) ∧
    (step 2 initJob (.attempt .transcript (.waiting 3))).errors = [] ∧
    (step 2 (step 2 initJob (.attempt .transcript (.waiting 3)))
        (.attempt .transcript (.waiting 3))).errors =
      [.retryExhausted .transcript] :=
  ⟨Reachable.next _ _ Reachable.init, by decide, by decide⟩

/-- C8 (amended): a `Waiting` attempt that leaves retry budget remaining
never alters `errors`; the attempt that exhausts the budget appends exactly
one retry-exhaustion entry for its branch; every step changes `errors` by at
most one appended terminal entry; and in every reachable state `errors`
holds at most one entry per branch and none for a branch that has not
failed — never an entry for a mere `Waiting` status. -/
theorem waiting_error_discipline (m : ℕ) :
    (∀ (j : Job) (b : BranchId) (est : ℚ),
      j.stage = .processing →
      (branchOf j b = .pending ∨ branchOf j b = .waitingDep) →
      retryOf j b + 1 < m →
      (step m j (.attempt b (.waiting est))).errors = j.errors) ∧
    (∀ (j : Job) (b : BranchId) (est : ℚ),
      j.stage = .processing →
      (branchOf j b = .pending ∨ branchOf j b = .waitingDep) →
      ¬ retryOf j b + 1 < m →
      (step m j (.attempt b (.waiting est))).errors =
        j.errors ++ [.retryExhausted b]) ∧
    (∀ (j : Job) (e : Event), (step m j e).errors = j.errors ∨
      ∃ er, (step m j e).errors = j.errors ++ [er]) ∧
    (∀ j, Reachable m j → ∀ b,
      (j.errors.filter (fun er => errBranch er = some b)).length ≤ 1 ∧
      (branchOf j b ≠ .failedB →
        (j.errors.filter (fun er => errBranch er = some b)).length = 0)) := by
  refine ⟨?_, ?_, ?_, inv_error_counts m⟩
  · intro j b est h1 h2 h3
    simp only [step, if_pos (And.intro h1 h2), if_pos h3,
      setRetry_errors, setBranch_errors]
  · intro j b est h1 h2 h3
    simp only [step, if_pos (And.intro h1 h2), if_neg h3]
  · intro j e
    cases e with
    | attempt b st =>
      by_cases hg : j.stage = .processing ∧
          (branchOf j b = .pending ∨ branchOf j b = .waitingDep)
      · cases st with
        | ready =>
          simp only [step, if_pos hg]
          split_ifs with hboth
          · left
            simp [setBranch_errors]
          · left
            exact setBranch_errors j b .done
        | waiting est =>
          simp only [step, if_pos hg]
          split_ifs with hbud
          · left
            rw [setRetry_errors, setBranch_errors]
          · right
            exact ⟨.retryExhausted b, rfl⟩
        | failedS r =>
          simp only [step, if_pos hg]
          right
          exact ⟨.branchFailure b r, rfl⟩
      · simp only [step, if_neg hg]
        left
        trivial
    | analysisOk =>
      left
      by_cases hj : j.stage = .analyzing <;> simp [step, hj]
    | analysisFail =>
      by_cases hj : j.stage = .analyzing
      · right
        exact ⟨.analysisFailure, by simp [step, hj]⟩
      · left
        simp [step, hj]

/-- Closed witness for C8 (amended) on a fresh job with retry maximum 3. -/
theorem waiting_error_discipline_witness :
    (initJob.stage = .processing ∧
      (branchOf initJob .transcript = .pending ∨
        branchOf initJob .transcript = .waitingDep) ∧
      retryOf initJob .transcript + 1 < 3 ∧
      (step 3 initJob (.attempt .transcript (.waiting 3))).errors =
        initJob.errors) ∧
    ((step 3 initJob .analysisOk).errors = initJob.errors ∨
      ∃ er, (step 3 initJob .analysisOk).errors = initJob.errors ++ [er]) ∧
    ((initJob.errors.filter
        (fun er => errBranch er = some .transcript)).length ≤ 1 ∧
      (branchOf initJob .transcript ≠ .failedB →
        (initJob.errors.filter
          (fun er => errBranch er = some .transcript)).length = 0)) :=
  ⟨⟨rfl, Or.inl rfl, by decide,
    (waiting_error_discipline 3).1 initJob .transcript 3 rfl (Or.inl rfl)
      (by decide)⟩,
   (waiting_error_discipline 3).2.2.1 initJob .analysisOk,
   (waiting_error_discipline 3).2.2.2 initJob Reachable.init .transcript⟩

/-- C9: from `processing`, a step lands in `analyzing` exactly when both
branches are `done` after it — the join fires on the second completion, in
either order, and never with only one branch done; and once either branch
has failed, no sequence of further events ever brings the job to
`analyzing`. -/
theorem join_rule (m : ℕ) :
    (∀ (j : Job) (e : Event), Reachable m j → j.stage = .processing →
      ((step m j e).stage = .analyzing ↔
        (step m j e).frames = .done ∧ (step m j e).transcript = .done)) ∧
    (∀ (j : Job), Reachable m j →
      (j.frames = .failedB ∨ j.transcript = .failedB) →
      ∀ es : List Event, (runSteps m j es).stage ≠ .analyzing) := by
  constructor
  · intro j e hr hstage
    have hnboth := inv_not_both_done m j hr hstage
    cases e with
    | attempt b st =>
      by_cases hg : j.stage = .processing ∧
          (branchOf j b = .pending ∨ branchOf j b = .waitingDep)
      · cases st with
        | ready =>
          simp only [step, if_pos hg]
          split_ifs with hboth
          · constructor
            · intro _
              exact ⟨by simpa using hboth.1, by simpa using hboth.2⟩
            · intro _
              trivial
          · constructor
            · intro hcon
              rw [setBranch_stage] at hcon
              exact absurd (hstage.symm.trans hcon) (by simp)
            · intro hcon
              exact absurd hcon hboth
        | waiting est =>
          simp only [step, if_pos hg]
          split_ifs with hbud
          · constructor
            · intro hcon
              rw [setRetry_stage, setBranch_stage] at hcon
              exact absurd (hstage.symm.trans hcon) (by simp)
            · intro hcon
              exfalso
              cases b
              · simp [setRetry, setBranch] at hcon
              · simp [setRetry, setBranch] at hcon
          · constructor
            · intro hcon
              simp at hcon
            · intro hcon
              exfalso
              cases b
              · simp [setRetry, setBranch] at hcon
              · simp [setRetry, setBranch] at hcon
        | failedS r =>
          simp only [step, if_pos hg]
          constructor
          · intro hcon
            simp at hcon
          · intro hcon
            exfalso
            cases b
            · simp [setBranch] at hcon
            · simp [setBranch] at hcon
      · simp only [step, if_neg hg]
        constructor
        · intro hcon
          exact absurd (hstage.symm.trans hcon) (by simp)
        · intro hcon
          exact absurd hcon hnboth
    | analysisOk =>
      have hj : ¬ j.stage = .analyzing := by
        rw [hstage]
        simp
      simp only [step, if_neg hj]
      constructor
      · intro hcon
        exact absurd (hstage.symm.trans hcon) (by simp)
      · intro hcon
        exact absurd hcon hnboth
    | analysisFail =>
      have hj : ¬ j.stage = .analyzing := by
        rw [hstage]
        simp
      simp only [step, if_neg hj]
      constructor
      · intro hcon
        exact absurd (hstage.symm.trans hcon) (by simp)
      · intro hcon
        exact absurd hcon hnboth
  · intro j hr hfb es
    have hfj : j.stage = .failedJ := inv_branch_failed m j hr hfb
    induction es with
    | nil =>
      rw [runSteps, List.foldl_nil, hfj]
      simp
    | cons e es ih =>
      rw [runSteps, List.foldl_cons, step_of_failedJ m j e hfj]
      exact ih

/-- Closed witness for C9: first `Ready` alone does not fire the join, and a
failed frames branch keeps `analyzing` unreachable. -/
theorem join_rule_witness :
    (initJob.stage = .processing ∧
      ((step 3 initJob (.attempt .frames .ready)).stage = .analyzing ↔
        (step 3 initJob (.attempt .frames .ready)).frames = .done ∧
        (step 3 initJob (.attempt .frames .ready)).transcript = .done)) ∧
    ((step 3 initJob (.attempt .frames (.failedS ['e']))).frames = .failedB ∨
      (step 3 initJob (.attempt .frames (.failedS ['e']))).transcript = .failedB) ∧
    (runSteps 3 (step 3 initJob (.attempt .frames (.failedS ['e'])))
        [.analysisOk, .attempt .transcript .ready]).stage ≠ .analyzing :=
  ⟨⟨rfl, (join_rule 3).1 initJob (.attempt .frames .ready) Reachable.init rfl⟩,
   Or.inl (by decide),
   (join_rule 3).2 (step 3 initJob (.attempt .frames (.failedS ['e'])))
     (Reachable.next _ _ Reachable.init) (Or.inl (by decide))
     [.analysisOk, .attempt .transcript .ready]⟩
